import Mathlib

/-!
Verification of core parsing routines of the allsorts font library.

The development shallowly embeds the Rust sources as Lean functions:

* byte streams are lists of naturals (each element a byte value, `< 256`);
* big-endian multi-byte reads are explicit arithmetic on those lists;
* fallible Rust functions returning `Result`/`Option` become `Option`- or
  `Except`-valued Lean functions;
* machine integers are `Nat`/`Int` with explicit wrap-around (`% 2 ^ w`)
  exactly where the Rust code can wrap.

Each section names the Rust source file and function it embeds.
-/

/- ## Byte-level readers

Modelled from the spec: the `binary::read` module (ReadCtxt/ReadScope) is not
part of the provided sources; per the spec all multi-byte scalars are
big-endian, reads fail with a bounds error when the required bytes are
unavailable, and a successful read consumes exactly the bytes of the datum. -/

/-- Read one byte (`ReadCtxt::read::<U8>`): fails on an empty stream. -/
def readU8 : List Nat → Option (Nat × List Nat)
  | [] => none
  | b :: rest => some (b, rest)

/-- Big-endian 16-bit value from two bytes. -/
def be16 (hi lo : Nat) : Nat := 256 * hi + lo

/-- Read a big-endian u16 (`ReadCtxt::read::<U16Be>`). -/
def readU16 : List Nat → Option (Nat × List Nat)
  | b0 :: b1 :: rest => some (be16 b0 b1, rest)
  | _ => none

/-- Read a big-endian u32 (`ReadCtxt::read::<U32Be>`). -/
def readU32 : List Nat → Option (Nat × List Nat)
  | b0 :: b1 :: b2 :: b3 :: rest =>
      some (((256 * b0 + b1) * 256 + b2) * 256 + b3, rest)
  | _ => none

/-- Interpret a 16-bit unsigned value as two's-complement signed. -/
def toI16 (n : Nat) : Int := if n < 32768 then (n : Int) else (n : Int) - 65536

/-- Interpret an 8-bit unsigned value as two's-complement signed. -/
def toI8 (n : Nat) : Int := if n < 128 then (n : Int) else (n : Int) - 256

/-- Interpret a 32-bit unsigned value as two's-complement signed. -/
def toI32 (n : Nat) : Int :=
  if n < 2 ^ 31 then (n : Int) else (n : Int) - 2 ^ 32

/-- Read a big-endian i16 (`ReadCtxt::read::<I16Be>`). -/
def readI16 (bs : List Nat) : Option (Int × List Nat) :=
  (readU16 bs).map fun (n, rest) => (toI16 n, rest)

/-- Read `n` raw bytes (`ReadCtxt::read_slice`): fails when fewer than `n`
bytes remain. -/
def readSlice (n : Nat) (bs : List Nat) : Option (List Nat × List Nat) :=
  if n ≤ bs.length then some (bs.take n, bs.drop n) else none

/- ## cmap directory parser

Embeds `CMap::from_buf` from `allsorts/src/cmap.rs`.  The Rust code
transmutes the slice and then checks, in order: `buf.len() < min_size_of()`
(4 bytes), `version() != 0` (big-endian u16 at offset 0), and
`buf.len() != size_of()` where `size_of = 4 + 8 * num_tables` (big-endian
u16 at offset 2). -/

/-- Parsed view of a cmap directory header: `version` and `numTables`. -/
structure CMapView where
  version : Nat
  numTables : Nat
deriving DecidableEq, Repr

/-- Version word of a byte slice: big-endian u16 at offset 0 (0 for a short
slice, used only to state the acceptance condition). -/
def cmapVersionWord (b : List Nat) : Nat := be16 (b.getD 0 0) (b.getD 1 0)

/-- The numTables word of a byte slice: big-endian u16 at offset 2. -/
def cmapNumTablesWord (b : List Nat) : Nat := be16 (b.getD 2 0) (b.getD 3 0)

/-- Embedding of `CMap::from_buf`. -/
def cmapFromBuf (b : List Nat) : Option CMapView :=
  match b with
  | b0 :: b1 :: b2 :: b3 :: rest =>
      let version := be16 b0 b1
      let numTables := be16 b2 b3
      if version ≠ 0 then none
      else if 4 + rest.length ≠ 4 + 8 * numTables then none
      else some { version := version, numTables := numTables }
  | _ => none

/- ## DeltaSetIndexMap entry size

Embeds `DeltaSetIndexMap::entry_size_impl` and `DeltaSetIndexMap::entry`
from `src/tables/variable_fonts.rs`.  In Rust, `+` binds tighter than `>>`,
so the source expression `(entry_format & MAP_ENTRY_SIZE_MASK) >> 4 + 1`
parses as a right shift by `4 + 1 = 5`; the embedding keeps that exact
parse. -/

/-- Mask for the entry-size bits of the DeltaSetIndexMap entry format. -/
def MAP_ENTRY_SIZE_MASK : Nat := 0x30

/-- Embedding of `DeltaSetIndexMap::entry_size_impl` with Rust's actual
operator precedence: a shift by `4 + 1`. -/
def entrySizeImpl (entryFormat : Nat) : Nat :=
  (entryFormat &&& MAP_ENTRY_SIZE_MASK) >>> (4 + 1)

/-- The entry size the spec says was intended: `((fmt & 0x30) >> 4) + 1`. -/
def entrySizeIntended (entryFormat : Nat) : Nat :=
  ((entryFormat &&& MAP_ENTRY_SIZE_MASK) >>> 4) + 1

/-- Parsed `DeltaSetIndexMap` (format byte and map count are consumed by the
reader; `map_data` is the raw entry bytes). -/
structure DeltaSetIndexMapM where
  entryFormat : Nat
  mapCount : Nat
  mapData : List Nat
deriving DecidableEq, Repr

/-- Embedding of `DeltaSetIndexMap::entry`: slices `entry_size` bytes at
`i * entry_size`, folds them big-endian into a u32, then splits into outer
and inner indices (both truncated to u16 by the Rust casts). -/
def dsimEntry (m : DeltaSetIndexMapM) (i : Nat) : Option (Nat × Nat) :=
  let entrySize := entrySizeImpl m.entryFormat
  let offset := i * entrySize
  if offset + entrySize ≤ m.mapData.length then
    let entryBytes := (m.mapData.drop offset).take entrySize
    let entry := entryBytes.foldl (fun e byte => (e % 2 ^ 24) * 256 + byte) 0
    let innerBits := (m.entryFormat &&& 0x0F) + 1
    some ((entry >>> innerBits) % 2 ^ 16, (entry &&& (2 ^ innerBits - 1)) % 2 ^ 16)
  else none

/- ## Packed point numbers and packed deltas

Embeds `read_count`, `read_packed_point_numbers` and `read_packed_deltas`
from `src/tables/variable_fonts.rs`.  Constants from the source:
`POINTS_ARE_WORDS = 0x80`, `POINT_RUN_COUNT_MASK = 0x7F`,
`DELTAS_ARE_ZERO = 0x80`, `DELTAS_ARE_WORDS = 0x40`,
`DELTA_RUN_COUNT_MASK = 0x3F`. -/

/-- Embedding of `read_count`: one- or two-byte point count. -/
def readCount (bs : List Nat) : Option (Nat × List Nat) :=
  match readU8 bs with
  | none => none
  | some (c1, bs1) =>
      if c1 = 0 then some (0, bs1)
      else if c1 ≤ 127 then some (c1, bs1)
      else
        match readU8 bs1 with
        | none => none
        | some (c2, bs2) => some (((c1 &&& 0x7F) <<< 8) ||| c2, bs2)

/-- Decoded point-number set: all points, or an explicit list. -/
inductive PointNumbersM
  | all (n : Nat)
  | specific (nums : List Nat)
deriving DecidableEq, Repr

/-- Read one run of point-number deltas and accumulate the running sum
starting from `prev`.  The Rust source reads the whole run with
`read_array` and then applies `scan(0u16, |prev, diff| ...)`; reading and
accumulating element-wise fails on exactly the same inputs.  The u16 sum
`*prev + diff` is modelled with wrap-around `% 2 ^ 16`. -/
def readPointRun (isWords : Bool) : Nat → Nat → List Nat → Option (List Nat × List Nat)
  | 0, _, bs => some ([], bs)
  | n + 1, prev, bs =>
      match (if isWords then readU16 bs else readU8 bs) with
      | none => none
      | some (d, bs1) =>
          let num := (prev + d) % 2 ^ 16
          match readPointRun isWords n num bs1 with
          | none => none
          | some (xs, rest) => some (num :: xs, rest)

/-- The run loop of `read_packed_point_numbers`: `remaining` is
`count - num_read`; each iteration reads a control byte and one run.  Note
the accumulator restarts at 0 for every run, exactly as the per-run
`scan(0u16, ...)` in the source does.  `fuel` makes the recursion
structural; every run emits at least one number, so `remaining ≤ fuel`
keeps the fuel branch unreachable (see `pointNumbersLoop_fuel`). -/
def pointNumbersLoop : Nat → Nat → List Nat → Option (List Nat × List Nat)
  | _, 0, bs => some ([], bs)
  | 0, _ + 1, _ => none
  | fuel + 1, remaining + 1, bs =>
      match readU8 bs with
      | none => none
      | some (control, bs1) =>
          let runCount := (control &&& 0x7F) + 1
          match readPointRun (control &&& 0x80 = 0x80 : Bool) runCount 0 bs1 with
          | none => none
          | some (nums, bs2) =>
              match pointNumbersLoop fuel (remaining + 1 - runCount) bs2 with
              | none => none
              | some (rest, bs3) => some (nums ++ rest, bs3)

/-- Embedding of `read_packed_point_numbers`. -/
def readPackedPointNumbers (bs : List Nat) (numPoints : Nat) :
    Option (PointNumbersM × List Nat) :=
  match readCount bs with
  | none => none
  | some (count, bs1) =>
      if count = 0 then some (.all numPoints, bs1)
      else
        match pointNumbersLoop count count bs1 with
        | none => none
        | some (nums, bs2) => some (.specific nums, bs2)

/-- Read one run of word-sized (i16) packed deltas. -/
def readDeltaRunWords : Nat → List Nat → Option (List Int × List Nat)
  | 0, bs => some ([], bs)
  | n + 1, bs =>
      match readU16 bs with
      | none => none
      | some (w, bs1) =>
          match readDeltaRunWords n bs1 with
          | none => none
          | some (xs, rest) => some (toI16 w :: xs, rest)

/-- Read one run of byte-sized (i8, sign-extended) packed deltas. -/
def readDeltaRunBytes : Nat → List Nat → Option (List Int × List Nat)
  | 0, bs => some ([], bs)
  | n + 1, bs =>
      match readU8 bs with
      | none => none
      | some (b, bs1) =>
          match readDeltaRunBytes n bs1 with
          | none => none
          | some (xs, rest) => some (toI8 b :: xs, rest)

/-- The run loop of `read_packed_deltas`: `remaining` is
`num_deltas - deltas_read`.  A run may overshoot `remaining`; the loop then
simply stops (Nat subtraction saturates at 0 exactly like the Rust
`while deltas_read < num_deltas` exit).  `fuel` makes the recursion
structural; every run emits at least one delta, so `remaining ≤ fuel` keeps
the fuel branch unreachable (see `deltasLoop_fuel`). -/
def deltasLoop : Nat → Nat → List Nat → Option (List Int × List Nat)
  | _, 0, bs => some ([], bs)
  | 0, _ + 1, _ => none
  | fuel + 1, remaining + 1, bs =>
      match readU8 bs with
      | none => none
      | some (control, bs1) =>
          let count := (control &&& 0x3F) + 1
          match
            (if control &&& 0x80 = 0x80 then some (List.replicate count (0 : Int), bs1)
             else if control &&& 0x40 = 0x40 then readDeltaRunWords count bs1
             else readDeltaRunBytes count bs1) with
          | none => none
          | some (run, bs2) =>
              match deltasLoop fuel (remaining + 1 - count) bs2 with
              | none => none
              | some (rest, bs3) => some (run ++ rest, bs3)

/-- Embedding of `read_packed_deltas`. -/
def readPackedDeltas (bs : List Nat) (numDeltas : Nat) : Option (List Int × List Nat) :=
  deltasLoop numDeltas numDeltas bs

/- ## Variation region scalar

Embeds `VariationRegion::scalar` from `src/tables/variable_fonts.rs`.
F2Dot14 axis coordinates are modelled by their exact rational values (the
conversion `f32::from(F2Dot14)` is exact, and comparisons on `F2Dot14`
agree with comparisons of those rationals); the f32 products and quotients
are modelled by exact rational arithmetic. -/

/-- Per-axis `(start, peak, end)` triple of a variation region
(`RegionAxisCoordinates`). -/
structure RegionAxisCoordinatesM where
  startCoord : ℚ
  peakCoord : ℚ
  endCoord : ℚ
deriving DecidableEq, Repr

/-- The per-axis scalar, exactly as computed in the body of
`VariationRegion::scalar`: `peak == 0` is checked first, then range
containment `(start..=end).contains(&instance)`, then the proportional
cases. -/
def axisScalar (r : RegionAxisCoordinatesM) (inst : ℚ) : ℚ :=
  if r.peakCoord = 0 then 1
  else if r.startCoord ≤ inst ∧ inst ≤ r.endCoord then
    if inst = r.peakCoord then 1
    else if inst < r.peakCoord then
      (inst - r.startCoord) / (r.peakCoord - r.startCoord)
    else
      (r.endCoord - inst) / (r.endCoord - r.peakCoord)
  else 0

/-- The region scalar before the non-zero test: the product of the per-axis
scalars over `region_axes.iter().zip(tuple)` (the fold starts at 1). -/
def regionScalarProd (axes : List RegionAxisCoordinatesM) (tuple : List ℚ) : ℚ :=
  ((axes.zip tuple).map fun p => axisScalar p.1 p.2).foldl (· * ·) 1

/-- Embedding of `VariationRegion::scalar`: `(scalar != 0.).then(|| scalar)`. -/
def regionScalar (axes : List RegionAxisCoordinatesM) (tuple : List ℚ) : Option ℚ :=
  let s := regionScalarProd axes tuple
  if s ≠ 0 then some s else none

/-- Exact characterisation of a zero per-axis scalar: the peak is non-zero
and the instance is either outside `[start, end]` or sits on the region
boundary away from the peak. -/
def axisScalarZero (r : RegionAxisCoordinatesM) (inst : ℚ) : Prop :=
  r.peakCoord ≠ 0 ∧
    (¬ (r.startCoord ≤ inst ∧ inst ≤ r.endCoord) ∨
      (inst < r.peakCoord ∧ inst = r.startCoord) ∨
      (r.peakCoord < inst ∧ inst = r.endCoord))

/-- Exact characterisation of a unit per-axis scalar: the peak is zero, or
the instance equals the peak and lies inside `[start, end]`. -/
def axisScalarOne (r : RegionAxisCoordinatesM) (inst : ℚ) : Prop :=
  r.peakCoord = 0 ∨
    (r.startCoord ≤ inst ∧ inst ≤ r.endCoord ∧ inst = r.peakCoord)

/- ## Arabic joining-state pass

Embeds step 2 of `gsub_apply_arabic` from `src/scripts/arabic.rs` together
with the glyph classification helpers of `ArabicGlyph`.  The Rust loop
walks the glyph vector with `previous_i` pointing at the last
non-transparent glyph (initially the first non-transparent one, or 0);
the functional version below carries the pending previous glyph and the
transparent glyphs seen since it, emitting the previous glyph once its
final tag is known. -/

/-- Unicode joining types used by the shaper. -/
inductive JoiningTypeM
  | nonJoining
  | leftJoining
  | rightJoining
  | dualJoining
  | joinCausing
  | transparent
deriving DecidableEq, Repr

/-- Feature tag `isol` as a big-endian four-byte tag word. -/
def ISOL : Nat := 0x69736F6C

/-- Feature tag `init`. -/
def INIT : Nat := 0x696E6974

/-- Feature tag `medi`. -/
def MEDI : Nat := 0x6D656469

/-- Feature tag `fina`. -/
def FINA : Nat := 0x66696E61

/-- An Arabic glyph as the shaper sees it: its joining type, the
`multi_subst_dup` flag, and the current feature tag. -/
structure ArabicGlyphM where
  joiningType : JoiningTypeM
  multiSubstDup : Bool
  featureTag : Nat
deriving DecidableEq, Repr

/-- Embedding of `ArabicGlyph::is_transparent`. -/
def isTransparentA (g : ArabicGlyphM) : Prop :=
  g.joiningType = .transparent ∨ g.multiSubstDup = true

instance (g : ArabicGlyphM) : Decidable (isTransparentA g) := by
  unfold isTransparentA; infer_instance

/-- Embedding of `ArabicGlyph::is_left_joining`. -/
def isLeftJoiningA (g : ArabicGlyphM) : Prop :=
  g.joiningType = .leftJoining ∨ g.joiningType = .dualJoining ∨
    g.joiningType = .joinCausing

instance (g : ArabicGlyphM) : Decidable (isLeftJoiningA g) := by
  unfold isLeftJoiningA; infer_instance

/-- Embedding of `ArabicGlyph::is_right_joining`. -/
def isRightJoiningA (g : ArabicGlyphM) : Prop :=
  g.joiningType = .rightJoining ∨ g.joiningType = .dualJoining ∨
    g.joiningType = .joinCausing

instance (g : ArabicGlyphM) : Decidable (isRightJoiningA g) := by
  unfold isRightJoiningA; infer_instance

/-- Embedding of `ArabicGlyph::set_feature_tag`. -/
def setTag (g : ArabicGlyphM) (t : Nat) : ArabicGlyphM := { g with featureTag := t }

/-- The tag mutation applied to the previous glyph when a join is found:
`ISOL → INIT`, `FINA → MEDI`, anything else unchanged. -/
def promoteTag (t : Nat) : Nat :=
  if t = ISOL then INIT else if t = FINA then MEDI else t

/-- The walk of step 2: `prev` is the glyph at `previous_i` (its final tag
not yet decided), `pending` holds (reversed) the transparent glyphs seen
since `prev`, and the list argument is the remainder of the run.  A
non-transparent glyph `g` triggers the join test: if `prev` is left-joining
and `g` right-joining, `g` gets `FINA` and `prev` is promoted. -/
def joinAux (prev : ArabicGlyphM) (pending : List ArabicGlyphM) :
    List ArabicGlyphM → List ArabicGlyphM
  | [] => prev :: pending.reverse
  | g :: gs =>
      if isTransparentA g then joinAux prev (g :: pending) gs
      else
        if isLeftJoiningA prev ∧ isRightJoiningA g then
          setTag prev (promoteTag prev.featureTag) :: pending.reverse ++
            joinAux (setTag g FINA) [] gs
        else
          prev :: pending.reverse ++ joinAux g [] gs

/-- Embedding of the joining-state pass (step 2 of `gsub_apply_arabic`):
glyphs before the first non-transparent one are untouched (if all glyphs
are transparent the run is unchanged, as in the Rust loop starting at
`previous_i + 1`). -/
def joinPass : List ArabicGlyphM → List ArabicGlyphM
  | [] => []
  | g :: gs => if isTransparentA g then g :: joinPass gs else joinAux g [] gs

/-- A tag drawn from the four joining-state tags. -/
def tag4 (t : Nat) : Prop := t = ISOL ∨ t = INIT ∨ t = MEDI ∨ t = FINA

/-- Invariant of the pass, walking the run with the nearest preceding
non-transparent glyph in hand: every non-transparent glyph tagged `MEDI`
or `FINA` is right-joining-capable and the nearest preceding
non-transparent glyph exists and is left-joining-capable. -/
def TagsOK : Option ArabicGlyphM → List ArabicGlyphM → Prop
  | _, [] => True
  | lastNT, g :: gs =>
      if isTransparentA g then TagsOK lastNT gs
      else
        ((g.featureTag = MEDI ∨ g.featureTag = FINA) →
          isRightJoiningA g ∧ ∃ p, lastNT = some p ∧ isLeftJoiningA p) ∧
        TagsOK (some g) gs

/-- A dual-joining letter with tag `ISOL`, as produced by
`ArabicGlyph::from` for a dual-joining character. -/
def dualG : ArabicGlyphM := { joiningType := .dualJoining, multiSubstDup := false, featureTag := ISOL }

/-- A transparent mark with tag `ISOL`. -/
def transG : ArabicGlyphM := { joiningType := .transparent, multiSubstDup := false, featureTag := ISOL }

/- ## glyf outline engine (composite depth behaviour)

Embeds `glyf::outline` and `glyf::outline_impl` from `src/outline.rs`.  The
byte-level pieces they rely on (Stream, loca::Table, CompositeGlyphIter,
Builder) are not under src/.  Modelled from the spec: a glyph id resolves
through loca/glyf to a record carrying the parsed header rect and either a
simple body, a composite body listing referenced component glyph ids, or an
empty body (`numContours == 0`); unresolvable component ids are silently
skipped, exactly like the nested `if let` in the source; transforms and
builder callbacks do not affect the returned rect and are omitted.  The
spec leaves MAX_COMPONENTS implementation-defined and suggests 32.  `fuel`
makes the recursion structural; the top-level call passes
`fuel = MAX_COMPONENTS` so that `fuel = MAX_COMPONENTS - depth` throughout
and the fuel-exhaustion branch is unreachable (the `depth ≥ MAX_COMPONENTS`
guard fires first). -/

/-- Parsed glyph header rect (`Rect` with `x_min`/`y_min`/`x_max`/`y_max`). -/
structure RectM where
  xMin : Int
  yMin : Int
  xMax : Int
  yMax : Int
deriving DecidableEq, Repr

/-- Body of a glyph record: simple outline, composite component list, or
empty (`numContours == 0`). -/
inductive GlyphBody
  | simple
  | composite (components : List Nat)
  | empty
deriving DecidableEq, Repr

/-- A resolved glyph: its header rect and body. -/
structure GlyphRecord where
  rect : RectM
  body : GlyphBody
deriving DecidableEq, Repr

/-- The composite recursion bound (implementation-defined; 32 per spec). -/
def MAX_COMPONENTS : Nat := 32

/-- One step of the component loop: a failed accumulator short-circuits
(this is the `?` operator propagating `None` out of the `for` loop). -/
def stepAll {α : Type} (f : α → Option Unit) (acc : Option Unit) (c : α) : Option Unit :=
  match acc with
  | none => none
  | some _ => f c

/-- Embedding of `glyf::outline_impl`.  The component loop folds over the
components: an unresolvable glyph id is skipped, and a `None` from the
recursive call makes the whole fold (and hence this call) return `None`,
exactly as `outline_impl(..)?` does.  (The fold keeps traversing after a
failure where Rust breaks out, but with no builder side effects in the
model the result is identical.) -/
def outlineImpl (font : Nat → Option GlyphRecord) :
    Nat → GlyphRecord → Nat → Option RectM
  | fuel, data, depth =>
      if MAX_COMPONENTS ≤ depth then none
      else
        match data.body with
        | .simple => some data.rect
        | .empty => none
        | .composite comps =>
            match fuel with
            | 0 => none
            | fuel + 1 =>
                match
                  comps.foldl
                    (stepAll fun c =>
                      match font c with
                      | none => some ()
                      | some gd =>
                          match outlineImpl font fuel gd (depth + 1) with
                          | none => none
                          | some _ => some ())
                    (some ()) with
                | none => none
                | some _ => some data.rect

/-- Embedding of `glyf::outline`: resolve the glyph and outline it at
depth 0. -/
def glyfOutline (font : Nat → Option GlyphRecord) (glyphId : Nat) : Option RectM :=
  match font glyphId with
  | none => none
  | some data => outlineImpl font MAX_COMPONENTS data 0

/-- A one-glyph font whose glyph 0 is a composite referencing itself. -/
def selfFont : Nat → Option GlyphRecord := fun i =>
  if i = 0 then some ⟨⟨1, 2, 3, 4⟩, .composite [0]⟩ else none

/- ## OS/2 table reader and writer

Embeds `Os2::read_dep` and the `WriteBinary` impls from
`src/tables/os2.rs`.  The version-0 tail is present iff the observed
`table_size` is at least 78; versions 1, 2–4 and 5 tails are keyed on the
declared version word.  The writer recomputes the version word from the
sub-records present: 5 if `version5` is present, else 4 if `version2to4`,
else 1 if `version1`, else 0. -/

/-- Serialise a u16 big-endian (`U16Be::write`). -/
def writeU16 (v : Nat) : List Nat := [v / 256 % 256, v % 256]

/-- Serialise an i16 big-endian two's complement (`I16Be::write`). -/
def writeI16 (v : Int) : List Nat := writeU16 (v % 65536).toNat

/-- Serialise a u32 big-endian (`U32Be::write`). -/
def writeU32 (v : Nat) : List Nat :=
  [v / 2 ^ 24 % 256, v / 2 ^ 16 % 256, v / 256 % 256, v % 256]

/-- Version-0 tail of the OS/2 table. -/
structure Version0M where
  sTypoAscender : Int
  sTypoDescender : Int
  sTypoLineGap : Int
  usWinAscent : Nat
  usWinDescent : Nat
deriving DecidableEq, Repr

/-- Version-1 tail. -/
structure Version1M where
  ulCodePageRange1 : Nat
  ulCodePageRange2 : Nat
deriving DecidableEq, Repr

/-- Version-2-to-4 tail. -/
structure Version2to4M where
  sxHeight : Int
  sCapHeight : Int
  usDefaultChar : Nat
  usBreakChar : Nat
  usMaxContext : Nat
deriving DecidableEq, Repr

/-- Version-5 tail. -/
structure Version5M where
  usLowerOpticalPointSize : Nat
  usUpperOpticalPointSize : Nat
deriving DecidableEq, Repr

/-- The OS/2 table, fields in source order. -/
structure Os2M where
  version : Nat
  xAvgCharWidth : Int
  usWeightClass : Nat
  usWidthClass : Nat
  fsType : Nat
  ySubscriptXSize : Int
  ySubscriptYSize : Int
  ySubscriptXOffset : Int
  ySubscriptYOffset : Int
  ySuperscriptXSize : Int
  ySuperscriptYSize : Int
  ySuperscriptXOffset : Int
  ySuperscriptYOffset : Int
  yStrikeoutSize : Int
  yStrikeoutPosition : Int
  sFamilyClass : Int
  panose : List Nat
  ulUnicodeRange1 : Nat
  ulUnicodeRange2 : Nat
  ulUnicodeRange3 : Nat
  ulUnicodeRange4 : Nat
  achVendId : Nat
  fsSelection : Nat
  usFirstCharIndex : Nat
  usLastCharIndex : Nat
  version0 : Option Version0M
  version1 : Option Version1M
  version2to4 : Option Version2to4M
  version5 : Option Version5M
deriving DecidableEq, Repr

/-- Monadic bind on `Option`, written out so proofs can peel reader chains
one step at a time (`obind_eq_some`). -/
def obind {α β : Type} (x : Option α) (f : α → Option β) : Option β :=
  match x with
  | none => none
  | some a => f a

/-- Embedding of `Os2::read_dep` (the remaining bytes are returned so the
caller can require full consumption). -/
def os2ReadDep (bs : List Nat) (tableSize : Nat) : Option (Os2M × List Nat) :=
  obind (readU16 bs) fun (version, bs) =>
  obind (readI16 bs) fun (xAvgCharWidth, bs) =>
  obind (readU16 bs) fun (usWeightClass, bs) =>
  obind (readU16 bs) fun (usWidthClass, bs) =>
  obind (readU16 bs) fun (fsType, bs) =>
  obind (readI16 bs) fun (ySubscriptXSize, bs) =>
  obind (readI16 bs) fun (ySubscriptYSize, bs) =>
  obind (readI16 bs) fun (ySubscriptXOffset, bs) =>
  obind (readI16 bs) fun (ySubscriptYOffset, bs) =>
  obind (readI16 bs) fun (ySuperscriptXSize, bs) =>
  obind (readI16 bs) fun (ySuperscriptYSize, bs) =>
  obind (readI16 bs) fun (ySuperscriptXOffset, bs) =>
  obind (readI16 bs) fun (ySuperscriptYOffset, bs) =>
  obind (readI16 bs) fun (yStrikeoutSize, bs) =>
  obind (readI16 bs) fun (yStrikeoutPosition, bs) =>
  obind (readI16 bs) fun (sFamilyClass, bs) =>
  obind (readSlice 10 bs) fun (panose, bs) =>
  obind (readU32 bs) fun (ulUnicodeRange1, bs) =>
  obind (readU32 bs) fun (ulUnicodeRange2, bs) =>
  obind (readU32 bs) fun (ulUnicodeRange3, bs) =>
  obind (readU32 bs) fun (ulUnicodeRange4, bs) =>
  obind (readU32 bs) fun (achVendId, bs) =>
  obind (readU16 bs) fun (fsSelection, bs) =>
  obind (readU16 bs) fun (usFirstCharIndex, bs) =>
  obind (readU16 bs) fun (usLastCharIndex, bs) =>
  obind (if 78 ≤ tableSize then
           obind (readI16 bs) fun (sTypoAscender, bs) =>
           obind (readI16 bs) fun (sTypoDescender, bs) =>
           obind (readI16 bs) fun (sTypoLineGap, bs) =>
           obind (readU16 bs) fun (usWinAscent, bs) =>
           obind (readU16 bs) fun (usWinDescent, bs) =>
           some (some (Version0M.mk sTypoAscender sTypoDescender sTypoLineGap
             usWinAscent usWinDescent), bs)
         else some (none, bs)) fun (version0, bs) =>
  obind (if 1 ≤ version then
           obind (readU32 bs) fun (ulCodePageRange1, bs) =>
           obind (readU32 bs) fun (ulCodePageRange2, bs) =>
           some (some (Version1M.mk ulCodePageRange1 ulCodePageRange2), bs)
         else some (none, bs)) fun (version1, bs) =>
  obind (if 2 ≤ version then
           obind (readI16 bs) fun (sxHeight, bs) =>
           obind (readI16 bs) fun (sCapHeight, bs) =>
           obind (readU16 bs) fun (usDefaultChar, bs) =>
           obind (readU16 bs) fun (usBreakChar, bs) =>
           obind (readU16 bs) fun (usMaxContext, bs) =>
           some (some (Version2to4M.mk sxHeight sCapHeight usDefaultChar
             usBreakChar usMaxContext), bs)
         else some (none, bs)) fun (version2to4, bs) =>
  obind (if 5 ≤ version then
           obind (readU16 bs) fun (usLowerOpticalPointSize, bs) =>
           obind (readU16 bs) fun (usUpperOpticalPointSize, bs) =>
           some (some (Version5M.mk usLowerOpticalPointSize usUpperOpticalPointSize), bs)
         else some (none, bs)) fun (version5, bs) =>
  some (Os2M.mk version xAvgCharWidth usWeightClass usWidthClass fsType
    ySubscriptXSize ySubscriptYSize ySubscriptXOffset ySubscriptYOffset
    ySuperscriptXSize ySuperscriptYSize ySuperscriptXOffset ySuperscriptYOffset
    yStrikeoutSize yStrikeoutPosition sFamilyClass panose
    ulUnicodeRange1 ulUnicodeRange2 ulUnicodeRange3 ulUnicodeRange4
    achVendId fsSelection usFirstCharIndex usLastCharIndex
    version0 version1 version2to4 version5, bs)

/-- The version word the writer emits, recomputed from the sub-records
present (`WriteBinary for Os2`). -/
def os2WriteVersion (t : Os2M) : Nat :=
  if t.version5.isSome then 5
  else if t.version2to4.isSome then 4
  else if t.version1.isSome then 1
  else 0

/-- Writer for the version-0 tail (`WriteBinary for Version0`, emitted only
when present). -/
def os2WriteV0 : Option Version0M → List Nat
  | none => []
  | some v => writeI16 v.sTypoAscender ++ writeI16 v.sTypoDescender ++
      writeI16 v.sTypoLineGap ++ writeU16 v.usWinAscent ++ writeU16 v.usWinDescent

/-- Writer for the version-1 tail. -/
def os2WriteV1 : Option Version1M → List Nat
  | none => []
  | some v => writeU32 v.ulCodePageRange1 ++ writeU32 v.ulCodePageRange2

/-- Writer for the version-2-to-4 tail. -/
def os2WriteV2to4 : Option Version2to4M → List Nat
  | none => []
  | some v => writeI16 v.sxHeight ++ writeI16 v.sCapHeight ++
      writeU16 v.usDefaultChar ++ writeU16 v.usBreakChar ++ writeU16 v.usMaxContext

/-- Writer for the version-5 tail. -/
def os2WriteV5 : Option Version5M → List Nat
  | none => []
  | some v => writeU16 v.usLowerOpticalPointSize ++ writeU16 v.usUpperOpticalPointSize

/-- Embedding of `WriteBinary::write` for `Os2` (and the chained
sub-record `WriteBinary` impls). -/
def os2Write (t : Os2M) : List Nat :=
  writeU16 (os2WriteVersion t) ++
  writeI16 t.xAvgCharWidth ++
  writeU16 t.usWeightClass ++
  writeU16 t.usWidthClass ++
  writeU16 t.fsType ++
  writeI16 t.ySubscriptXSize ++
  writeI16 t.ySubscriptYSize ++
  writeI16 t.ySubscriptXOffset ++
  writeI16 t.ySubscriptYOffset ++
  writeI16 t.ySuperscriptXSize ++
  writeI16 t.ySuperscriptYSize ++
  writeI16 t.ySuperscriptXOffset ++
  writeI16 t.ySuperscriptYOffset ++
  writeI16 t.yStrikeoutSize ++
  writeI16 t.yStrikeoutPosition ++
  writeI16 t.sFamilyClass ++
  t.panose ++
  writeU32 t.ulUnicodeRange1 ++
  writeU32 t.ulUnicodeRange2 ++
  writeU32 t.ulUnicodeRange3 ++
  writeU32 t.ulUnicodeRange4 ++
  writeU32 t.achVendId ++
  writeU16 t.fsSelection ++
  writeU16 t.usFirstCharIndex ++
  writeU16 t.usLastCharIndex ++
  os2WriteV0 t.version0 ++
  os2WriteV1 t.version1 ++
  os2WriteV2to4 t.version2to4 ++
  os2WriteV5 t.version5

/-- The bytes of a 96-byte version-2 OS/2 table: version word 2, all other
fields zero (length 68 + 10 + 8 + 10 = 96, as a version-2 table must be). -/
def os2V2Bytes : List Nat := 0 :: 2 :: List.replicate 94 0

/- ## CFF CharString scanner

Embeds `char_string_used_subrs` and `scan_used_subrs` from
`src/cff/charstring.rs`.  Stack values are `f32` in Rust, but the scanner
never combines two stack values arithmetically: every value is pushed by a
number parser and is an exact multiple of 1/65536 (integers from the
32..=254 and 28 encodings, 16.16 fixed-point from 255).  They are therefore
modelled exactly as integers scaled by 65536 (a 16.16 value; `parse_fixed`
in f32 would round to 24 bits of mantissa, which no claim depends on).
The arguments stack (`argstack.rs`, not under src/) is modelled from the
spec: a fixed-capacity buffer of 48 values where a push past capacity
fails with the arguments-stack-limit error and `pop` takes the most
recently pushed value; the list below keeps the top at its head.  `pop` on
an empty stack (reachable only in the seac width pop, where Rust would
panic) yields 0.  `seac_code_to_glyph_id` (standard-encoding map owned by
the CFF font, not under src/) is an opaque function of the font.  `fuel`
makes the recursion structural; claims about accepted CharStrings
quantify over every fuel value. -/

/-- A scanner stack value: an f32 that is an exact multiple of 1/65536,
stored as its numerator over 65536 (16.16 fixed-point). -/
abbrev FVal := Int

/-- The `CFFError` kinds of the scanner, plus `outOfFuel` for the
embedding's fuel exhaustion (not a source error). -/
inductive CFFErr
  | parseError
  | invalidOperator
  | unsupportedOperator
  | missingEndChar
  | dataAfterEndChar
  | nestingLimitReached
  | argumentsStackLimitReached
  | invalidArgumentsStackLength
  | duplicateVsIndex
  | invalidSubroutineIndex
  | noLocalSubroutines
  | invalidSeacCode
  | outOfFuel
deriving DecidableEq, Repr

/-- A subroutine or CharStrings INDEX: a list of byte strings
(`MaybeOwnedIndex`, accessed by `read_object` = `List.get?` and `len`). -/
abbrev IndexM := List (List Nat)

/-- Subroutine nesting limit (Adobe TN #5177 Appendix B). -/
def STACK_LIMIT : Nat := 10

/-- Arguments stack capacity (Adobe TN #5177 Appendix B). -/
def MAX_ARGUMENTS_STACK_LEN : Nat := 48

/-- Embedding of `calc_subroutine_bias`. -/
def calcSubroutineBias (len : Nat) : Nat :=
  if len < 1240 then 107 else if len < 33900 then 1131 else 32768

/-- Truncation toward zero of a 16.16 value, as `v as i32` does for f32. -/
def fvTrunc (q : FVal) : Int :=
  if 0 ≤ q then (q.toNat / 65536 : Nat) else -(((-q).toNat / 65536 : Nat) : Int)

/-- Embedding of `i32::try_num_from(f32)`: defined on `[-2^31, 2^31)`. -/
def tryNumFromI32 (q : FVal) : Option Int :=
  if -(2 ^ 31) * 65536 ≤ q ∧ q < 2 ^ 31 * 65536 then some (fvTrunc q) else none

/-- Embedding of `u16::try_num_from(f32)` (via i32 then `u16::try_from`). -/
def tryNumFromU16 (q : FVal) : Option Nat :=
  match tryNumFromI32 q with
  | none => none
  | some i => if 0 ≤ i ∧ i ≤ 65535 then some i.toNat else none

/-- Embedding of `conv_subroutine_index_impl`: truncate, add the bias with
an i32 `checked_add`, convert to usize. -/
def convSubroutineIndexImpl (q : FVal) (bias : Nat) : Option Nat :=
  match tryNumFromI32 q with
  | none => none
  | some i =>
      let s := i + (bias : Int)
      if 2 ^ 31 - 1 < s then none
      else if s < 0 then none
      else some s.toNat

/-- Push onto the arguments stack; fails at capacity 48. -/
def pushStack (stack : List FVal) (v : FVal) : Option (List FVal) :=
  if stack.length = MAX_ARGUMENTS_STACK_LEN then none else some (v :: stack)

/-- Pop the top of the arguments stack (0 when empty; see section note). -/
def popStack : List FVal → FVal × List FVal
  | [] => (0, [])
  | v :: s => (v, s)

/-- Insert an index into a used-subroutine set (`FxHashSet::insert`). -/
def insertUsed (l : List Nat) (i : Nat) : List Nat :=
  if i ∈ l then l else i :: l

/-- Embedding of `parse_int1`: value `op - 139` (scaled by 65536). -/
def parseInt1 (op : Nat) : FVal := ((op : Int) - 139) * 65536

/-- Embedding of `parse_int2`: value `(op - 247) * 256 + b1 + 108`
(scaled by 65536). -/
def parseInt2 (op b1 : Nat) : FVal := (((op : Int) - 247) * 256 + b1 + 108) * 65536

/-- Embedding of `parse_int3`: value `-(op - 251) * 256 - b1 - 108`
(scaled by 65536). -/
def parseInt3 (op b1 : Nat) : FVal := (-((op : Int) - 251) * 256 - b1 - 108) * 65536

/-- Embedding of `parse_fixed`: a 16.16 fixed-point value from a big-endian
u32 word (the i32 word is already the value scaled by 65536). -/
def parseFixedVal (n : Nat) : FVal := toI32 n

/-- CID font data: `FDSelect` and the per-font-dict local subr indices. -/
structure CIDM where
  fdSelect : Nat → Option Nat
  localSubrIndices : List (Option IndexM)

/-- The CFF1 variant: Type1 (single optional local INDEX) or CID. -/
inductive CFFVariantM
  | type1 (localSubrIndex : Option IndexM)
  | cid (c : CIDM)

/-- A CFF1 font: its variant and the seac standard-encoding map. -/
structure CFF1FontM where
  variant : CFFVariantM
  seacToGlyph : FVal → Option Nat

/-- The font handed to the scanner: CFF1 or CFF2 (with its local INDEX). -/
inductive CFFFontM
  | cff1 (f : CFF1FontM)
  | cff2 (localSubrIndex : Option IndexM)

/-- The indices shared by every frame of a scan. -/
structure ScanEnv where
  charStringsIndex : IndexM
  globalSubrIndex : IndexM

/-- The mutable scanner context (`CharStringScannerContext`). -/
structure ScanCtx where
  widthParsed : Bool
  stemsLen : Nat
  hasEndchar : Bool
  hasSeac : Bool
  vsindexSet : Bool
  glyphId : Nat
  localSubrs : Option IndexM
  globalSubrUsed : List Nat
  localSubrUsed : List Nat
deriving DecidableEq, Repr

/-- Result of scanning one frame: the updated context, the shared stack,
and the bytes of this frame left unread when the loop exited. -/
structure ScanOut where
  ctx : ScanCtx
  stack : List FVal
  rem : List Nat
deriving DecidableEq, Repr

/-- Decidable equality for `Except` results, so concrete scans can be
settled by `decide`. -/
instance {ε α : Type} [DecidableEq ε] [DecidableEq α] : DecidableEq (Except ε α)
  | .error a, .error b =>
      if h : a = b then isTrue (h ▸ rfl)
      else isFalse fun hh => h (Except.error.inj hh)
  | .error _, .ok _ => isFalse Except.noConfusion
  | .ok _, .error _ => isFalse Except.noConfusion
  | .ok a, .ok b =>
      if h : a = b then isTrue (h ▸ rfl)
      else isFalse fun hh => h (Except.ok.inj hh)

/-- The lazy CID local-subroutine resolution at the top of the
CALL_LOCAL_SUBROUTINE arm: when no local subrs are resolved yet and the
font is a CFF1 CID font, look the glyph up through `FDSelect` and the
font-dict local indices. -/
def resolveLocalSubrs (font : CFFFontM) (ctx : ScanCtx) : ScanCtx :=
  match ctx.localSubrs, font with
  | none, .cff1 ⟨.cid c, _⟩ =>
      { ctx with localSubrs :=
          match c.fdSelect ctx.glyphId with
          | none => none
          | some fdi =>
              match c.localSubrIndices.get? fdi with
              | some (some index) => some index
              | _ => none }
  | _, _ => ctx

/-- Embedding of `scan_used_subrs`.  One fuel unit is spent per executed
operator byte, keeping the recursion structural; a Rust execution that
terminates is reproduced by every sufficiently large fuel. -/
def scanLoop (env : ScanEnv) (font : CFFFontM) :
    Nat → ScanCtx → List FVal → List Nat → Nat → Except CFFErr ScanOut
  | 0, _, _, _, _ => .error .outOfFuel
  | fuel + 1, ctx, stack, cs, depth =>
      match cs with
      | [] => .ok ⟨ctx, stack, []⟩
      | op :: rest =>
          if op = 0 ∨ op = 2 ∨ op = 9 ∨ op = 13 ∨ op = 17 then
            -- Reserved.
            .error .invalidOperator
          else if op = 1 ∨ op = 3 ∨ op = 18 ∨ op = 23 then
            -- HSTEM | VSTEM | HSTEM_HINT_MASK | VSTEM_HINT_MASK
            if stack.length % 2 = 1 ∧ ctx.widthParsed = false then
              scanLoop env font fuel
                { ctx with widthParsed := true,
                           stemsLen := ctx.stemsLen + (stack.length - 1) / 2 }
                [] rest depth
            else
              scanLoop env font fuel
                { ctx with stemsLen := ctx.stemsLen + stack.length / 2 } [] rest depth
          else if op = 4 then
            -- VERTICAL_MOVE_TO
            scanLoop env font fuel
              (if stack.length = 2 ∧ ctx.widthParsed = false then
                { ctx with widthParsed := true } else ctx) [] rest depth
          else if op = 5 ∨ op = 6 ∨ op = 7 ∨ op = 8 then
            -- LINE_TO | HORIZONTAL_LINE_TO | VERTICAL_LINE_TO | CURVE_TO
            scanLoop env font fuel ctx [] rest depth
          else if op = 10 then
            -- CALL_LOCAL_SUBROUTINE
            if stack.length = 0 then .error .invalidArgumentsStackLength
            else if depth = STACK_LIMIT then .error .nestingLimitReached
            else
              let ctx := resolveLocalSubrs font ctx
              match ctx.localSubrs with
              | some localSubrs =>
                  let bias := calcSubroutineBias localSubrs.length
                  let (idxQ, stack) := popStack stack
                  match convSubroutineIndexImpl idxQ bias with
                  | none => .error .invalidSubroutineIndex
                  | some index =>
                      match localSubrs.get? index with
                      | none => .error .invalidSubroutineIndex
                      | some subrCs =>
                          let ctx := { ctx with
                            localSubrUsed := insertUsed ctx.localSubrUsed index }
                          match scanLoop env font fuel ctx stack subrCs (depth + 1) with
                          | .error e => .error e
                          | .ok out =>
                              if out.ctx.hasEndchar = true ∧ out.ctx.hasSeac = false then
                                if rest ≠ [] then .error .dataAfterEndChar
                                else .ok ⟨out.ctx, out.stack, rest⟩
                              else scanLoop env font fuel out.ctx out.stack rest depth
              | none => .error .noLocalSubroutines
          else if op = 11 then
            -- RETURN: ends the frame in CFF1, removed in CFF2
            match font with
            | .cff1 _ => .ok ⟨ctx, stack, rest⟩
            | .cff2 _ => .error .invalidOperator
          else if op = 12 then
            -- TWO_BYTE_OPERATOR_MARK: HFLEX | FLEX | HFLEX1 | FLEX1
            match readU8 rest with
            | none => .error .parseError
            | some (op2, rest2) =>
                if op2 = 34 ∨ op2 = 35 ∨ op2 = 36 ∨ op2 = 37 then
                  scanLoop env font fuel ctx [] rest2 depth
                else .error .unsupportedOperator
          else if op = 14 then
            -- ENDCHAR (CFF1 only)
            match font with
            | .cff1 f =>
                if stack.length = 4 ∨ (ctx.widthParsed = false ∧ stack.length = 5) then
                  -- seac composite
                  let (accentQ, stack) := popStack stack
                  match f.seacToGlyph accentQ with
                  | none => .error .invalidSeacCode
                  | some accentChar =>
                      let (baseQ, stack) := popStack stack
                      match f.seacToGlyph baseQ with
                      | none => .error .invalidSeacCode
                      | some baseChar =>
                          let (_dy, stack) := popStack stack
                          let (_dx, stack) := popStack stack
                          let (ctx, stack) :=
                            if ctx.widthParsed = false then
                              ({ ctx with widthParsed := true }, (popStack stack).2)
                            else (ctx, stack)
                          let ctx := { ctx with hasSeac := true }
                          match env.charStringsIndex.get? baseChar with
                          | none => .error .invalidSeacCode
                          | some baseCs =>
                              match scanLoop env font fuel ctx stack baseCs (depth + 1) with
                              | .error e => .error e
                              | .ok out1 =>
                                  match env.charStringsIndex.get? accentChar with
                                  | none => .error .invalidSeacCode
                                  | some accentCs =>
                                      match scanLoop env font fuel out1.ctx out1.stack
                                          accentCs (depth + 1) with
                                      | .error e => .error e
                                      | .ok out2 =>
                                          if rest ≠ [] then .error .dataAfterEndChar
                                          else .ok ⟨{ out2.ctx with hasEndchar := true },
                                            out2.stack, rest⟩
                else
                  let (ctx, stack) :=
                    if stack.length = 1 ∧ ctx.widthParsed = false then
                      ({ ctx with widthParsed := true }, (popStack stack).2)
                    else (ctx, stack)
                  if rest ≠ [] then .error .dataAfterEndChar
                  else .ok ⟨{ ctx with hasEndchar := true }, stack, rest⟩
            | .cff2 _ => .error .invalidOperator
          else if op = 15 then
            -- VS_INDEX (CFF2 only)
            match font with
            | .cff1 _ => .error .invalidOperator
            | .cff2 _ =>
                if ctx.vsindexSet = true then .error .duplicateVsIndex
                else scanLoop env font fuel { ctx with vsindexSet := true } [] rest depth
          else if op = 16 then
            -- BLEND (CFF2 only)
            match font with
            | .cff1 _ => .error .invalidOperator
            | .cff2 _ =>
                if 0 < stack.length then
                  let (nQ, stack) := popStack stack
                  match tryNumFromU16 nQ with
                  | none => .error .invalidArgumentsStackLength
                  | some n =>
                      if stack.length < n then .error .invalidArgumentsStackLength
                      else scanLoop env font fuel ctx (stack.drop (stack.length - n))
                        rest depth
                else .error .invalidArgumentsStackLength
          else if op = 19 ∨ op = 20 then
            -- HINT_MASK | COUNTER_MASK
            let ctx :=
              if stack.length % 2 = 1 ∧ ctx.widthParsed = false then
                { ctx with widthParsed := true,
                           stemsLen := ctx.stemsLen + (stack.length - 1) / 2 }
              else { ctx with stemsLen := ctx.stemsLen + stack.length / 2 }
            match readSlice ((ctx.stemsLen + 7) / 8) rest with
            | none => .error .parseError
            | some (_, rest2) => scanLoop env font fuel ctx [] rest2 depth
          else if op = 21 then
            -- MOVE_TO
            scanLoop env font fuel
              (if stack.length = 3 ∧ ctx.widthParsed = false then
                { ctx with widthParsed := true } else ctx) [] rest depth
          else if op = 22 then
            -- HORIZONTAL_MOVE_TO
            scanLoop env font fuel
              (if stack.length = 2 ∧ ctx.widthParsed = false then
                { ctx with widthParsed := true } else ctx) [] rest depth
          else if op = 24 ∨ op = 25 ∨ op = 26 ∨ op = 27 ∨ op = 30 ∨ op = 31 then
            -- CURVE_LINE | LINE_CURVE | VV/HH/VH/HV_CURVE_TO
            scanLoop env font fuel ctx [] rest depth
          else if op = 28 then
            -- SHORT_INT
            match readU16 rest with
            | none => .error .parseError
            | some (n, rest2) =>
                match pushStack stack (toI16 n * 65536) with
                | none => .error .argumentsStackLimitReached
                | some stack2 => scanLoop env font fuel ctx stack2 rest2 depth
          else if op = 29 then
            -- CALL_GLOBAL_SUBROUTINE
            if stack.length = 0 then .error .invalidArgumentsStackLength
            else if depth = STACK_LIMIT then .error .nestingLimitReached
            else
              let bias := calcSubroutineBias env.globalSubrIndex.length
              let (idxQ, stack) := popStack stack
              match convSubroutineIndexImpl idxQ bias with
              | none => .error .invalidSubroutineIndex
              | some index =>
                  let ctx := { ctx with
                    globalSubrUsed := insertUsed ctx.globalSubrUsed index }
                  match env.globalSubrIndex.get? index with
                  | none => .error .invalidSubroutineIndex
                  | some subrCs =>
                      match scanLoop env font fuel ctx stack subrCs (depth + 1) with
                      | .error e => .error e
                      | .ok out =>
                          if out.ctx.hasEndchar = true ∧ out.ctx.hasSeac = false then
                            if rest ≠ [] then .error .dataAfterEndChar
                            else .ok ⟨out.ctx, out.stack, rest⟩
                          else scanLoop env font fuel out.ctx out.stack rest depth
          else if 32 ≤ op ∧ op ≤ 246 then
            match pushStack stack (parseInt1 op) with
            | none => .error .argumentsStackLimitReached
            | some stack2 => scanLoop env font fuel ctx stack2 rest depth
          else if 247 ≤ op ∧ op ≤ 250 then
            match readU8 rest with
            | none => .error .parseError
            | some (b1, rest2) =>
                match pushStack stack (parseInt2 op b1) with
                | none => .error .argumentsStackLimitReached
                | some stack2 => scanLoop env font fuel ctx stack2 rest2 depth
          else if 251 ≤ op ∧ op ≤ 254 then
            match readU8 rest with
            | none => .error .parseError
            | some (b1, rest2) =>
                match pushStack stack (parseInt3 op b1) with
                | none => .error .argumentsStackLimitReached
                | some stack2 => scanLoop env font fuel ctx stack2 rest2 depth
          else if op = 255 then
            -- FIXED_16_16
            match readU32 rest with
            | none => .error .parseError
            | some (n, rest2) =>
                match pushStack stack (parseFixedVal n) with
                | none => .error .argumentsStackLimitReached
                | some stack2 => scanLoop env font fuel ctx stack2 rest2 depth
          else
            -- values above 255 cannot occur in a byte stream
            .error .invalidOperator

/-- The sets of used subroutine indices returned on success. -/
structure UsedSubrsM where
  globalSubrUsed : List Nat
  localSubrUsed : List Nat
deriving DecidableEq, Repr

/-- The local subrs resolved up front in `char_string_used_subrs`: Type1
uses its own index, CID resolves lazily (starts as `None`), CFF2 uses the
font-dict index. -/
def initialLocalSubrs (font : CFFFontM) : Option IndexM :=
  match font with
  | .cff1 f =>
      match f.variant with
      | .cid _ => none
      | .type1 l => l
  | .cff2 l => l

/-- The initial scanner context built in `char_string_used_subrs`. -/
def initCtx (glyphId : Nat) (localSubrs : Option IndexM) : ScanCtx :=
  { widthParsed := false, stemsLen := 0, hasEndchar := false, hasSeac := false,
    vsindexSet := false, glyphId := glyphId, localSubrs := localSubrs,
    globalSubrUsed := [], localSubrUsed := [] }

/-- Embedding of `char_string_used_subrs`: scan from depth 0 with an empty
stack, then require `has_endchar` for CFF1. -/
def charStringUsedSubrs (fuel : Nat) (env : ScanEnv) (font : CFFFontM)
    (charString : List Nat) (glyphId : Nat) : Except CFFErr UsedSubrsM :=
  match scanLoop env font fuel (initCtx glyphId (initialLocalSubrs font)) []
      charString 0 with
  | .error e => .error e
  | .ok out =>
      match font with
      | .cff1 _ =>
          if out.ctx.hasEndchar = false then .error .missingEndChar
          else .ok ⟨out.ctx.globalSubrUsed, out.ctx.localSubrUsed⟩
      | .cff2 _ => .ok ⟨out.ctx.globalSubrUsed, out.ctx.localSubrUsed⟩

/-- An empty scan environment (no CharStrings, no global subrs), for
concrete witnesses. -/
def env0 : ScanEnv := ⟨[], []⟩

/-- A trivial Type1 CFF1 font with no local subrs and an empty seac map,
for concrete witnesses. -/
def cff1Trivial : CFF1FontM := ⟨.type1 none, fun _ => none⟩

/- ## Theorems -/

/-- C2: `CMap::from_buf(b)` succeeds iff `b.len() ≥ 4`, the version word is
0, and `b.len() = 4 + 8 * numTables`; on success `version()` is 0 and
`num_tables()` is the numTables word. -/
theorem cmap_from_buf_spec (b : List Nat) :
    ((cmapFromBuf b).isSome ↔
      4 ≤ b.length ∧ cmapVersionWord b = 0 ∧
        b.length = 4 + 8 * cmapNumTablesWord b) ∧
    (∀ v, cmapFromBuf b = some v →
      v.version = 0 ∧ v.numTables = cmapNumTablesWord b) := by
  match b with
  | [] => simp [cmapFromBuf]
  | [b0] => simp [cmapFromBuf]
  | [b0, b1] => simp [cmapFromBuf]
  | [b0, b1, b2] => simp [cmapFromBuf]
  | b0 :: b1 :: b2 :: b3 :: rest =>
      simp only [cmapFromBuf, cmapVersionWord, cmapNumTablesWord, List.getD_cons_succ,
        List.getD_cons_zero, List.length_cons]
      constructor
      · by_cases h0 : be16 b0 b1 = 0
        · by_cases h1 : 4 + rest.length = 4 + 8 * be16 b2 b3
          · simp [h0, h1]; omega
          · simp [h0, h1]; omega
        · simp [h0]
      · intro v hv
        by_cases h0 : be16 b0 b1 = 0
        · by_cases h1 : 4 + rest.length = 4 + 8 * be16 b2 b3
          · simp [h0, h1] at hv
            simp [← hv, h0]
          · simp [h0, h1] at hv
        · simp [h0] at hv

/-- C2 witness: the spec's two-record example is accepted with version 0 and
numTables 2. -/
theorem cmap_from_buf_spec_witness :
    cmapFromBuf [0, 0, 0, 2, 0, 3, 0, 10, 0, 0, 1, 0, 0, 1, 0, 0, 0, 0, 2, 1] =
      some { version := 0, numTables := 2 } ∧
    (0 : Nat) = 0 ∧ (2 : Nat) =
      cmapNumTablesWord [0, 0, 0, 2, 0, 3, 0, 10, 0, 0, 1, 0, 0, 1, 0, 0, 0, 0, 2, 1] := by
  refine ⟨by decide, ?_⟩
  exact (cmap_from_buf_spec
    [0, 0, 0, 2, 0, 3, 0, 10, 0, 0, 1, 0, 0, 1, 0, 0, 0, 0, 2, 1]).2
    { version := 0, numTables := 2 } (by decide)

/-- The per-axis scalar lies in `[0, 1]`. -/
theorem axisScalar_bounds (r : RegionAxisCoordinatesM) (inst : ℚ) :
    0 ≤ axisScalar r inst ∧ axisScalar r inst ≤ 1 := by
  unfold axisScalar
  by_cases hp : r.peakCoord = 0
  · simp [hp]
  · rw [if_neg hp]
    by_cases hin : r.startCoord ≤ inst ∧ inst ≤ r.endCoord
    · rw [if_pos hin]
      by_cases hpk : inst = r.peakCoord
      · simp [hpk]
      · rw [if_neg hpk]
        by_cases hlt : inst < r.peakCoord
        · rw [if_pos hlt]
          have hden : 0 < r.peakCoord - r.startCoord := by
            have := hin.1; linarith
          constructor
          · apply div_nonneg <;> linarith
          · rw [div_le_one hden]; linarith
        · rw [if_neg hlt]
          have hgt : r.peakCoord < inst := lt_of_le_of_ne (not_lt.mp hlt) (Ne.symm hpk)
          have hden : 0 < r.endCoord - r.peakCoord := by
            have := hin.2; linarith
          constructor
          · apply div_nonneg <;> linarith
          · rw [div_le_one hden]; linarith
    · simp [hin]

/-- The per-axis scalar is zero exactly under `axisScalarZero`. -/
theorem axisScalar_eq_zero_iff (r : RegionAxisCoordinatesM) (inst : ℚ) :
    axisScalar r inst = 0 ↔ axisScalarZero r inst := by
  unfold axisScalar axisScalarZero
  by_cases hp : r.peakCoord = 0
  · simp [hp]
  · rw [if_neg hp]
    by_cases hin : r.startCoord ≤ inst ∧ inst ≤ r.endCoord
    · rw [if_pos hin]
      by_cases hpk : inst = r.peakCoord
      · rw [if_pos hpk]
        constructor
        · intro h; exact absurd h one_ne_zero
        · rintro ⟨-, h | ⟨h, -⟩ | ⟨h, -⟩⟩
          · exact absurd hin h
          · exact absurd hpk (ne_of_lt h)
          · exact absurd hpk.symm (ne_of_lt h)
      · rw [if_neg hpk]
        by_cases hlt : inst < r.peakCoord
        · rw [if_pos hlt]
          have hden : 0 < r.peakCoord - r.startCoord := by
            have := hin.1; linarith
          rw [div_eq_zero_iff]
          constructor
          · rintro (h | h)
            · exact ⟨hp, Or.inr (Or.inl ⟨hlt, by linarith⟩)⟩
            · exact absurd h (by linarith)
          · rintro ⟨-, h | ⟨-, h⟩ | ⟨h, -⟩⟩
            · exact absurd hin h
            · exact Or.inl (by linarith)
            · exact absurd hlt (not_lt.mpr (le_of_lt h))
        · rw [if_neg hlt]
          have hgt : r.peakCoord < inst := lt_of_le_of_ne (not_lt.mp hlt) (Ne.symm hpk)
          have hden : 0 < r.endCoord - r.peakCoord := by
            have := hin.2; linarith
          rw [div_eq_zero_iff]
          constructor
          · rintro (h | h)
            · exact ⟨hp, Or.inr (Or.inr ⟨hgt, by linarith⟩)⟩
            · exact absurd h (by linarith)
          · rintro ⟨-, h | ⟨h, -⟩ | ⟨-, h⟩⟩
            · exact absurd hin h
            · exact absurd hgt (not_lt.mpr (le_of_lt h))
            · exact Or.inl (by linarith)
    · rw [if_neg hin]
      exact ⟨fun _ => ⟨hp, Or.inl hin⟩, fun _ => rfl⟩

/-- The per-axis scalar is one exactly under `axisScalarOne`. -/
theorem axisScalar_eq_one_iff (r : RegionAxisCoordinatesM) (inst : ℚ) :
    axisScalar r inst = 1 ↔ axisScalarOne r inst := by
  unfold axisScalar axisScalarOne
  by_cases hp : r.peakCoord = 0
  · simp [hp]
  · rw [if_neg hp]
    by_cases hin : r.startCoord ≤ inst ∧ inst ≤ r.endCoord
    · rw [if_pos hin]
      by_cases hpk : inst = r.peakCoord
      · rw [if_pos hpk]
        exact ⟨fun _ => Or.inr ⟨hin.1, hin.2, hpk⟩, fun _ => rfl⟩
      · rw [if_neg hpk]
        by_cases hlt : inst < r.peakCoord
        · rw [if_pos hlt]
          have hden : (0 : ℚ) < r.peakCoord - r.startCoord := by
            have := hin.1; linarith
          rw [div_eq_one_iff_eq (ne_of_gt hden)]
          constructor
          · intro h; exact absurd (by linarith : inst = r.peakCoord) hpk
          · rintro (h | ⟨-, -, h⟩)
            · exact absurd h hp
            · exact absurd h hpk
        · rw [if_neg hlt]
          have hgt : r.peakCoord < inst := lt_of_le_of_ne (not_lt.mp hlt) (Ne.symm hpk)
          have hden : (0 : ℚ) < r.endCoord - r.peakCoord := by
            have := hin.2; linarith
          rw [div_eq_one_iff_eq (ne_of_gt hden)]
          constructor
          · intro h; exact absurd (by linarith : inst = r.peakCoord) hpk
          · rintro (h | ⟨-, -, h⟩)
            · exact absurd h hp
            · exact absurd h hpk
    · rw [if_neg hin]
      constructor
      · intro h; exact absurd h zero_ne_one
      · rintro (h | ⟨h1, h2, -⟩)
        · exact absurd h hp
        · exact absurd ⟨h1, h2⟩ hin

/-- Product of a list of values in `[0, 1]` stays in `[0, 1]`. -/
theorem listProd_bounds (l : List ℚ) (h : ∀ x ∈ l, 0 ≤ x ∧ x ≤ 1) :
    0 ≤ l.prod ∧ l.prod ≤ 1 := by
  induction l with
  | nil => simp
  | cons x xs ih =>
      have hx := h x (List.mem_cons_self x xs)
      have hxs := ih fun y hy => h y (List.mem_cons_of_mem x hy)
      rw [List.prod_cons]
      exact ⟨mul_nonneg hx.1 hxs.1, mul_le_one₀ hx.2 hxs.1 hxs.2⟩

/-- A product of values in `[0, 1]` is one exactly when all factors are. -/
theorem listProd_eq_one_iff (l : List ℚ) (h : ∀ x ∈ l, 0 ≤ x ∧ x ≤ 1) :
    l.prod = 1 ↔ ∀ x ∈ l, x = 1 := by
  induction l with
  | nil => simp
  | cons x xs ih =>
      have hx := h x (List.mem_cons_self x xs)
      have hxs := fun y hy => h y (List.mem_cons_of_mem x hy)
      have hbounds := listProd_bounds xs hxs
      rw [List.prod_cons]
      constructor
      · intro hprod
        have hx1 : x = 1 := by
          have h1 : x * xs.prod ≤ x := mul_le_of_le_one_right hx.1 hbounds.2
          have h2 : x ≤ 1 := hx.2
          linarith [hprod ▸ h1]
        have hxs1 : xs.prod = 1 := by
          rw [hx1, one_mul] at hprod; exact hprod
        intro y hy
        rcases List.mem_cons.mp hy with rfl | hy
        · exact hx1
        · exact (ih hxs).mp hxs1 y hy
      · intro hall
        have hx1 := hall x (List.mem_cons_self x xs)
        have : xs.prod = 1 := (ih hxs).mpr fun y hy => hall y (List.mem_cons_of_mem x hy)
        rw [hx1, this, one_mul]

/-- Splitting lemma for `readU8`: a successful read consumed a prefix and is
insensitive to whatever follows it. -/
theorem readU8_split {bs : List Nat} {v : Nat} {rem : List Nat}
    (h : readU8 bs = some (v, rem)) :
    ∃ pre, bs = pre ++ rem ∧ ∀ t, readU8 (pre ++ t) = some (v, t) := by
  cases bs with
  | nil => exact absurd h (by simp [readU8])
  | cons b r =>
      simp only [readU8, Option.some.injEq, Prod.mk.injEq] at h
      exact ⟨[b], by simp [h.1, h.2], fun t => by simp [readU8, h.1]⟩

/-- Splitting lemma for `readU16`. -/
theorem readU16_split {bs : List Nat} {v : Nat} {rem : List Nat}
    (h : readU16 bs = some (v, rem)) :
    ∃ pre, bs = pre ++ rem ∧ ∀ t, readU16 (pre ++ t) = some (v, t) := by
  match bs with
  | [] => exact absurd h (by simp [readU16])
  | [b0] => exact absurd h (by simp [readU16])
  | b0 :: b1 :: r =>
      simp only [readU16, Option.some.injEq, Prod.mk.injEq] at h
      exact ⟨[b0, b1], by simp [h.1, h.2], fun t => by simp [readU16, h.1]⟩

/-- Splitting lemma for `readPointRun`. -/
theorem readPointRun_split (w : Bool) :
    ∀ (n prev : Nat) {bs : List Nat} {v : List Nat} {rem : List Nat},
      readPointRun w n prev bs = some (v, rem) →
      ∃ pre, bs = pre ++ rem ∧ ∀ t, readPointRun w n prev (pre ++ t) = some (v, t) := by
  intro n
  induction n with
  | zero =>
      intro prev bs v rem h
      simp only [readPointRun, Option.some.injEq, Prod.mk.injEq] at h
      exact ⟨[], by simp [h.2], fun t => by simp [readPointRun, h.1]⟩
  | succ n ih =>
      intro prev bs v rem h
      simp only [readPointRun] at h
      cases hr : (if w then readU16 bs else readU8 bs) with
      | none => rw [hr] at h; exact absurd h (by simp)
      | some dv =>
          obtain ⟨d, bs1⟩ := dv
          rw [hr] at h
          try simp only at h
          cases hrec : readPointRun w n ((prev + d) % 2 ^ 16) bs1 with
          | none => rw [hrec] at h; exact absurd h (by simp)
          | some xr =>
              obtain ⟨xs, rest⟩ := xr
              rw [hrec] at h
              simp only [Option.some.injEq, Prod.mk.injEq] at h
              obtain ⟨pre1, hbs1, hpre1⟩ : ∃ pre, bs = pre ++ bs1 ∧
                  ∀ t, (if w then readU16 (pre ++ t) else readU8 (pre ++ t)) = some (d, t) := by
                cases w with
                | false =>
                    simp only [Bool.false_eq_true, if_false] at hr ⊢
                    obtain ⟨p, hp, hall⟩ := readU8_split hr
                    exact ⟨p, hp, fun t => by simp [hall t]⟩
                | true =>
                    simp only [if_true] at hr ⊢
                    obtain ⟨p, hp, hall⟩ := readU16_split hr
                    exact ⟨p, hp, fun t => by simp [hall t]⟩
              obtain ⟨pre2, hbs2, hpre2⟩ := ih ((prev + d) % 2 ^ 16) hrec
              refine ⟨pre1 ++ pre2, ?_, ?_⟩
              · rw [hbs1, hbs2, ← h.2, List.append_assoc]
              · intro t
                simp only [readPointRun, List.append_assoc, hpre1 (pre2 ++ t), hpre2 t,
                  ← h.1, h.2]

/-- Splitting lemma for `pointNumbersLoop`. -/
theorem pointNumbersLoop_split :
    ∀ (fuel remaining : Nat) {bs : List Nat} {v : List Nat} {rem : List Nat},
      pointNumbersLoop fuel remaining bs = some (v, rem) →
      ∃ pre, bs = pre ++ rem ∧ ∀ t, pointNumbersLoop fuel remaining (pre ++ t) = some (v, t) := by
  intro fuel
  induction fuel with
  | zero =>
      intro remaining bs v rem h
      cases remaining with
      | zero =>
          simp only [pointNumbersLoop, Option.some.injEq, Prod.mk.injEq] at h
          exact ⟨[], by simp [h.2], fun t => by simp [pointNumbersLoop, h.1]⟩
      | succ r => exact absurd h (by simp [pointNumbersLoop])
  | succ fuel ih =>
      intro remaining bs v rem h
      cases remaining with
      | zero =>
          simp only [pointNumbersLoop, Option.some.injEq, Prod.mk.injEq] at h
          exact ⟨[], by simp [h.2], fun t => by simp [pointNumbersLoop, h.1]⟩
      | succ r =>
          simp only [pointNumbersLoop] at h
          cases hr : readU8 bs with
          | none => rw [hr] at h; exact absurd h (by simp)
          | some cb =>
              obtain ⟨control, bs1⟩ := cb
              rw [hr] at h
              try simp only at h
              cases hrun : readPointRun (control &&& 0x80 = 0x80 : Bool)
                  ((control &&& 0x7F) + 1) 0 bs1 with
              | none => rw [hrun] at h; exact absurd h (by simp)
              | some nb =>
                  obtain ⟨nums, bs2⟩ := nb
                  rw [hrun] at h
                  try simp only at h
                  cases hrec : pointNumbersLoop fuel (r + 1 - ((control &&& 0x7F) + 1)) bs2 with
                  | none => rw [hrec] at h; exact absurd h (by simp)
                  | some rb =>
                      obtain ⟨rest, bs3⟩ := rb
                      rw [hrec] at h
                      simp only [Option.some.injEq, Prod.mk.injEq] at h
                      obtain ⟨p1, hp1, hall1⟩ := readU8_split hr
                      obtain ⟨p2, hp2, hall2⟩ := readPointRun_split _ _ _ hrun
                      obtain ⟨p3, hp3, hall3⟩ := ih _ hrec
                      refine ⟨p1 ++ p2 ++ p3, ?_, ?_⟩
                      · rw [hp1, hp2, hp3, ← h.2]
                        simp [List.append_assoc]
                      · intro t
                        simp only [pointNumbersLoop, List.append_assoc,
                          hall1 (p2 ++ (p3 ++ t)), hall2 (p3 ++ t), hall3 t, ← h.1, h.2]

/-- Splitting lemma for `readDeltaRunWords`. -/
theorem readDeltaRunWords_split :
    ∀ (n : Nat) {bs : List Nat} {v : List Int} {rem : List Nat},
      readDeltaRunWords n bs = some (v, rem) →
      ∃ pre, bs = pre ++ rem ∧ ∀ t, readDeltaRunWords n (pre ++ t) = some (v, t) := by
  intro n
  induction n with
  | zero =>
      intro bs v rem h
      simp only [readDeltaRunWords, Option.some.injEq, Prod.mk.injEq] at h
      exact ⟨[], by simp [h.2], fun t => by simp [readDeltaRunWords, h.1]⟩
  | succ n ih =>
      intro bs v rem h
      simp only [readDeltaRunWords] at h
      cases hr : readU16 bs with
      | none => rw [hr] at h; exact absurd h (by simp)
      | some wv =>
          obtain ⟨w, bs1⟩ := wv
          rw [hr] at h
          try simp only at h
          cases hrec : readDeltaRunWords n bs1 with
          | none => rw [hrec] at h; exact absurd h (by simp)
          | some xr =>
              obtain ⟨xs, rest⟩ := xr
              rw [hrec] at h
              simp only [Option.some.injEq, Prod.mk.injEq] at h
              obtain ⟨p1, hp1, hall1⟩ := readU16_split hr
              obtain ⟨p2, hp2, hall2⟩ := ih hrec
              refine ⟨p1 ++ p2, ?_, fun t => ?_⟩
              · rw [hp1, hp2, ← h.2, List.append_assoc]
              · simp only [readDeltaRunWords, List.append_assoc, hall1 (p2 ++ t),
                  hall2 t, ← h.1, h.2]

/-- Splitting lemma for `readDeltaRunBytes`. -/
theorem readDeltaRunBytes_split :
    ∀ (n : Nat) {bs : List Nat} {v : List Int} {rem : List Nat},
      readDeltaRunBytes n bs = some (v, rem) →
      ∃ pre, bs = pre ++ rem ∧ ∀ t, readDeltaRunBytes n (pre ++ t) = some (v, t) := by
  intro n
  induction n with
  | zero =>
      intro bs v rem h
      simp only [readDeltaRunBytes, Option.some.injEq, Prod.mk.injEq] at h
      exact ⟨[], by simp [h.2], fun t => by simp [readDeltaRunBytes, h.1]⟩
  | succ n ih =>
      intro bs v rem h
      simp only [readDeltaRunBytes] at h
      cases hr : readU8 bs with
      | none => rw [hr] at h; exact absurd h (by simp)
      | some wv =>
          obtain ⟨w, bs1⟩ := wv
          rw [hr] at h
          try simp only at h
          cases hrec : readDeltaRunBytes n bs1 with
          | none => rw [hrec] at h; exact absurd h (by simp)
          | some xr =>
              obtain ⟨xs, rest⟩ := xr
              rw [hrec] at h
              simp only [Option.some.injEq, Prod.mk.injEq] at h
              obtain ⟨p1, hp1, hall1⟩ := readU8_split hr
              obtain ⟨p2, hp2, hall2⟩ := ih hrec
              refine ⟨p1 ++ p2, ?_, fun t => ?_⟩
              · rw [hp1, hp2, ← h.2, List.append_assoc]
              · simp only [readDeltaRunBytes, List.append_assoc, hall1 (p2 ++ t),
                  hall2 t, ← h.1, h.2]

/-- A successful word run returns exactly `n` deltas. -/
theorem readDeltaRunWords_length :
    ∀ (n : Nat) {bs : List Nat} {v : List Int} {rem : List Nat},
      readDeltaRunWords n bs = some (v, rem) → v.length = n := by
  intro n
  induction n with
  | zero =>
      intro bs v rem h
      simp only [readDeltaRunWords, Option.some.injEq, Prod.mk.injEq] at h
      simp [← h.1]
  | succ n ih =>
      intro bs v rem h
      simp only [readDeltaRunWords] at h
      cases hr : readU16 bs with
      | none => rw [hr] at h; exact absurd h (by simp)
      | some wv =>
          obtain ⟨w, bs1⟩ := wv
          rw [hr] at h
          try simp only at h
          cases hrec : readDeltaRunWords n bs1 with
          | none => rw [hrec] at h; exact absurd h (by simp)
          | some xr =>
              obtain ⟨xs, rest⟩ := xr
              rw [hrec] at h
              simp only [Option.some.injEq, Prod.mk.injEq] at h
              simp [← h.1, ih hrec]

/-- A successful byte run returns exactly `n` deltas. -/
theorem readDeltaRunBytes_length :
    ∀ (n : Nat) {bs : List Nat} {v : List Int} {rem : List Nat},
      readDeltaRunBytes n bs = some (v, rem) → v.length = n := by
  intro n
  induction n with
  | zero =>
      intro bs v rem h
      simp only [readDeltaRunBytes, Option.some.injEq, Prod.mk.injEq] at h
      simp [← h.1]
  | succ n ih =>
      intro bs v rem h
      simp only [readDeltaRunBytes] at h
      cases hr : readU8 bs with
      | none => rw [hr] at h; exact absurd h (by simp)
      | some wv =>
          obtain ⟨w, bs1⟩ := wv
          rw [hr] at h
          try simp only at h
          cases hrec : readDeltaRunBytes n bs1 with
          | none => rw [hrec] at h; exact absurd h (by simp)
          | some xr =>
              obtain ⟨xs, rest⟩ := xr
              rw [hrec] at h
              simp only [Option.some.injEq, Prod.mk.injEq] at h
              simp [← h.1, ih hrec]

/-- The delta loop emits at least `remaining` deltas and consumes a prefix. -/
theorem deltasLoop_split :
    ∀ (fuel remaining : Nat) {bs : List Nat} {v : List Int} {rem : List Nat},
      deltasLoop fuel remaining bs = some (v, rem) →
      remaining ≤ v.length ∧
        ∃ pre, bs = pre ++ rem ∧ ∀ t, deltasLoop fuel remaining (pre ++ t) = some (v, t) := by
  intro fuel
  induction fuel with
  | zero =>
      intro remaining bs v rem h
      cases remaining with
      | zero =>
          simp only [deltasLoop, Option.some.injEq, Prod.mk.injEq] at h
          exact ⟨by simp, ⟨[], by simp [h.2], fun t => by simp [deltasLoop, h.1]⟩⟩
      | succ r => exact absurd h (by simp [deltasLoop])
  | succ fuel ih =>
      intro remaining bs v rem h
      cases remaining with
      | zero =>
          simp only [deltasLoop, Option.some.injEq, Prod.mk.injEq] at h
          exact ⟨by simp, ⟨[], by simp [h.2], fun t => by simp [deltasLoop, h.1]⟩⟩
      | succ r =>
          simp only [deltasLoop] at h
          cases hr : readU8 bs with
          | none => rw [hr] at h; exact absurd h (by simp)
          | some cb =>
              obtain ⟨control, bs1⟩ := cb
              rw [hr] at h
              try simp only at h
              cases hrun :
                  (if control &&& 0x80 = 0x80 then
                    some (List.replicate ((control &&& 0x3F) + 1) (0 : Int), bs1)
                   else if control &&& 0x40 = 0x40 then
                    readDeltaRunWords ((control &&& 0x3F) + 1) bs1
                   else readDeltaRunBytes ((control &&& 0x3F) + 1) bs1) with
              | none => rw [hrun] at h; exact absurd h (by simp)
              | some nb =>
                  obtain ⟨run, bs2⟩ := nb
                  rw [hrun] at h
                  try simp only at h
                  cases hrec : deltasLoop fuel (r + 1 - ((control &&& 0x3F) + 1)) bs2 with
                  | none => rw [hrec] at h; exact absurd h (by simp)
                  | some rb =>
                      obtain ⟨rest, bs3⟩ := rb
                      rw [hrec] at h
                      simp only [Option.some.injEq, Prod.mk.injEq] at h
                      obtain ⟨hlenr, p3, hp3, hall3⟩ := ih _ hrec
                      have hrunlen : run.length = (control &&& 0x3F) + 1 := by
                        by_cases hz : control &&& 0x80 = 0x80
                        · rw [if_pos hz] at hrun
                          simp only [Option.some.injEq, Prod.mk.injEq] at hrun
                          simp [← hrun.1]
                        · rw [if_neg hz] at hrun
                          by_cases hw : control &&& 0x40 = 0x40
                          · rw [if_pos hw] at hrun
                            exact readDeltaRunWords_length _ hrun
                          · rw [if_neg hw] at hrun
                            exact readDeltaRunBytes_length _ hrun
                      have hlen : r + 1 ≤ v.length := by
                        rw [← h.1]
                        simp only [List.length_append, hrunlen]
                        omega
                      obtain ⟨p2, hp2, hall2⟩ :
                          ∃ pre, bs1 = pre ++ bs2 ∧ ∀ t,
                            (if control &&& 0x80 = 0x80 then
                              some (List.replicate ((control &&& 0x3F) + 1) (0 : Int), pre ++ t)
                             else if control &&& 0x40 = 0x40 then
                              readDeltaRunWords ((control &&& 0x3F) + 1) (pre ++ t)
                             else readDeltaRunBytes ((control &&& 0x3F) + 1) (pre ++ t)) =
                              some (run, t) := by
                        by_cases hz : control &&& 0x80 = 0x80
                        · rw [if_pos hz] at hrun
                          simp only [Option.some.injEq, Prod.mk.injEq] at hrun
                          exact ⟨[], by simp [hrun.2], fun t => by
                            simp [if_pos hz, hrun.1]⟩
                        · rw [if_neg hz] at hrun
                          by_cases hw : control &&& 0x40 = 0x40
                          · rw [if_pos hw] at hrun
                            obtain ⟨p, hp, hall⟩ := readDeltaRunWords_split _ hrun
                            exact ⟨p, hp, fun t => by
                              simp [if_neg hz, if_pos hw, hall t]⟩
                          · rw [if_neg hw] at hrun
                            obtain ⟨p, hp, hall⟩ := readDeltaRunBytes_split _ hrun
                            exact ⟨p, hp, fun t => by
                              simp [if_neg hz, if_neg hw, hall t]⟩
                      obtain ⟨p1, hp1, hall1⟩ := readU8_split hr
                      refine ⟨hlen, p1 ++ p2 ++ p3, ?_, fun t => ?_⟩
                      · rw [hp1, hp2, hp3, ← h.2]
                        simp [List.append_assoc]
                      · simp only [deltasLoop, List.append_assoc,
                          hall1 (p2 ++ (p3 ++ t)), hall2 (p3 ++ t), hall3 t, ← h.1, h.2]

/-- Splitting lemma for `readCount`. -/
theorem readCount_split {bs : List Nat} {v : Nat} {rem : List Nat}
    (h : readCount bs = some (v, rem)) :
    ∃ pre, bs = pre ++ rem ∧ ∀ t, readCount (pre ++ t) = some (v, t) := by
  simp only [readCount] at h
  cases h1 : readU8 bs with
  | none => rw [h1] at h; exact absurd h (by simp)
  | some cb =>
      obtain ⟨c1, bs1⟩ := cb
      rw [h1] at h
      simp only at h
      obtain ⟨p1, hp1, hall1⟩ := readU8_split h1
      by_cases hz : c1 = 0
      · rw [if_pos hz] at h
        simp only [Option.some.injEq, Prod.mk.injEq] at h
        exact ⟨p1, by rw [hp1, h.2], fun t => by
          simp [readCount, hall1 t, hz, ← h.1]⟩
      · rw [if_neg hz] at h
        by_cases hs : c1 ≤ 127
        · rw [if_pos hs] at h
          simp only [Option.some.injEq, Prod.mk.injEq] at h
          exact ⟨p1, by rw [hp1, h.2], fun t => by
            simp [readCount, hall1 t, hz, hs, ← h.1]⟩
        · rw [if_neg hs] at h
          cases h2 : readU8 bs1 with
          | none => rw [h2] at h; exact absurd h (by simp)
          | some cb2 =>
              obtain ⟨c2, bs2⟩ := cb2
              rw [h2] at h
              simp only [Option.some.injEq, Prod.mk.injEq] at h
              obtain ⟨p2, hp2, hall2⟩ := readU8_split h2
              refine ⟨p1 ++ p2, ?_, fun t => ?_⟩
              · rw [hp1, hp2, ← h.2, List.append_assoc]
              · simp [readCount, List.append_assoc, hall1 (p2 ++ t), hall2 t, hz, hs, ← h.1]

/-- C4: the packed point-number decoder restarts its delta accumulator at
each control byte, so a two-run stream decodes to `[5, 3]` (not the carried
`[5, 8]`), which is not strictly increasing; the repository's own
single-run test vector is reproduced, confirming the embedding. -/
theorem packed_point_numbers_reset_bug :
    readPackedPointNumbers [2, 0, 5, 0, 3] 40 =
      some (.specific [5, 3], []) ∧
    ¬ (5 : Nat) < 3 ∧
    readPackedPointNumbers [0x0d, 0x0c, 1, 4, 4, 2, 1, 2, 3, 3, 2, 1, 1, 3, 4] 13 =
      some (.specific [1, 5, 9, 11, 12, 14, 17, 20, 22, 23, 24, 27, 31], []) := by
  decide

/-- C5 counterexample: with `numDeltas = 1`, the stream `[0x81]` (a
zero-run of length 2) is accepted and yields two deltas — the decoder does
not error when a run overshoots the declared count, contradicting the
claim that it fails and that success emits exactly `numDeltas` values. -/
theorem packed_deltas_overshoot_accepted :
    readPackedDeltas [0x81] 1 = some ([0, 0], []) ∧
    ([0, 0] : List Int).length ≠ 1 := by
  decide

/-- C5 (amended): the packed-delta decoder fails if the stream ends
mid-run; on success it emits at least `numDeltas` values (a final run may
overshoot without error) and it consumes exactly the bytes of the runs it
processed — the consumed prefix alone decodes to the same values with
nothing left; the packed point-number decoder has the same
exact-consumption property; the repository's own test vector decodes as
expected. -/
theorem packed_decoders_consumption :
    (∀ bs n out rem, readPackedDeltas bs n = some (out, rem) →
        n ≤ out.length ∧ ∃ pre, bs = pre ++ rem ∧
          readPackedDeltas pre n = some (out, [])) ∧
    (∀ bs np out rem, readPackedPointNumbers bs np = some (out, rem) →
        ∃ pre, bs = pre ++ rem ∧ readPackedPointNumbers pre np = some (out, [])) ∧
    readPackedDeltas [0x41] 1 = none ∧
    readPackedDeltas [0x03, 0x0A, 0x97, 0x00, 0xC6, 0x87, 0x41, 0x10, 0x22, 0xFB, 0x34] 14 =
      some ([10, -105, 0, -58, 0, 0, 0, 0, 0, 0, 0, 0, 4130, -1228], []) := by
  refine ⟨?_, ?_, by decide, by decide⟩
  · intro bs n out rem h
    obtain ⟨hlen, pre, hpre, hall⟩ := deltasLoop_split n n h
    exact ⟨hlen, pre, hpre, by simpa using hall []⟩
  · intro bs np out rem h
    simp only [readPackedPointNumbers] at h
    cases hc : readCount bs with
    | none => rw [hc] at h; exact absurd h (by simp)
    | some cv =>
        obtain ⟨count, bs1⟩ := cv
        rw [hc] at h
        simp only at h
        obtain ⟨p1, hp1, hall1⟩ := readCount_split hc
        by_cases hz : count = 0
        · rw [if_pos hz] at h
          simp only [Option.some.injEq, Prod.mk.injEq] at h
          refine ⟨p1, by rw [hp1, h.2], ?_⟩
          have h1 := hall1 []
          rw [List.append_nil] at h1
          simp [readPackedPointNumbers, h1, hz, ← h.1]
        · rw [if_neg hz] at h
          cases hl : pointNumbersLoop count count bs1 with
          | none => rw [hl] at h; exact absurd h (by simp)
          | some nb =>
              obtain ⟨nums, bs2⟩ := nb
              rw [hl] at h
              simp only [Option.some.injEq, Prod.mk.injEq] at h
              obtain ⟨p2, hp2, hall2⟩ := pointNumbersLoop_split count count hl
              refine ⟨p1 ++ p2, ?_, ?_⟩
              · rw [hp1, hp2, ← h.2, List.append_assoc]
              · have h2 := hall2 []
                rw [List.append_nil] at h2
                simp [readPackedPointNumbers, List.append_assoc, hall1 p2,
                  h2, hz, ← h.1]

/-- C5 witness: instantiating the consumption theorem on the overshooting
stream `[0x81]` with count 1. -/
theorem packed_decoders_consumption_witness :
    1 ≤ ([0, 0] : List Int).length ∧
    ∃ pre, ([0x81] : List Nat) = pre ++ [] ∧
      readPackedDeltas pre 1 = some ([0, 0], []) :=
  packed_decoders_consumption.1 [0x81] 1 [0, 0] [] (by decide)

/-- C8: the source computes the DeltaSetIndexMap entry size with Rust
precedence `(fmt & 0x30) >> (4 + 1)`, so for entry formats 0x00 and 0x10 it
yields 0 (the claimed formula gives 1 and 2), for 0x20 and 0x30 it yields 1
(claimed 3 and 4); with entry size 0, `entry(i)` slices zero bytes and
returns (0, 0) for any index. -/
theorem delta_set_index_map_entry_size_bug :
    entrySizeImpl 0x00 = 0 ∧ entrySizeImpl 0x10 = 0 ∧
    entrySizeImpl 0x20 = 1 ∧ entrySizeImpl 0x30 = 1 ∧
    entrySizeIntended 0x00 = 1 ∧ entrySizeIntended 0x10 = 2 ∧
    entrySizeIntended 0x20 = 3 ∧ entrySizeIntended 0x30 = 4 ∧
    dsimEntry { entryFormat := 0x00, mapCount := 3, mapData := [7, 7, 7] } 2 =
      some (0, 0) := by
  decide

/-- C6 counterexample: for the single-axis region `(start, peak, end) =
(1, 0, 1)` and instance `-1`, the instance is outside `[start, end]` yet
the scalar is `Some 1` (the `peak == 0` branch short-circuits before the
range check); and for the region `(-1, 1, 1)` with instance `-1` the
instance is inside `[start, end]` yet the scalar is 0 (`None`), since
`instance = start < peak` makes the proportional numerator zero.  Both
refute the claimed characterisation of the zero scalar. -/
theorem region_scalar_zero_iff_counterexample :
    regionScalar [⟨1, 0, 1⟩] [-1] = some 1 ∧
    ¬ ((1 : ℚ) ≤ -1 ∧ (-1 : ℚ) ≤ 1) ∧
    regionScalar [⟨-1, 1, 1⟩] [-1] = none ∧
    ((-1 : ℚ) ≤ -1 ∧ (-1 : ℚ) ≤ 1) := by
  refine ⟨?_, by norm_num, ?_, by norm_num⟩
  · simp [regionScalar, regionScalarProd, axisScalar]
  · simp [regionScalar, regionScalarProd, axisScalar]
    norm_num

/-- C6 (amended): the region scalar is the product of the per-axis scalars
and lies in `[0, 1]`; it is 0 (the function returns `None`) iff some zipped
axis satisfies `axisScalarZero` (peak non-zero and the instance outside
`[start, end]` or on the boundary away from the peak); it is 1 iff every
zipped axis satisfies `axisScalarOne` (peak zero, or instance equal to the
peak and inside `[start, end]`). -/
theorem region_scalar_spec (axes : List RegionAxisCoordinatesM) (tuple : List ℚ) :
    (0 ≤ regionScalarProd axes tuple ∧ regionScalarProd axes tuple ≤ 1) ∧
    (regionScalar axes tuple = none ↔
      ∃ p ∈ axes.zip tuple, axisScalarZero p.1 p.2) ∧
    (regionScalar axes tuple = some 1 ↔
      ∀ p ∈ axes.zip tuple, axisScalarOne p.1 p.2) := by
  have hprodeq : regionScalarProd axes tuple =
      ((axes.zip tuple).map fun p => axisScalar p.1 p.2).prod := by
    rw [regionScalarProd, List.prod_eq_foldl]
  have hmem : ∀ x ∈ (axes.zip tuple).map fun p => axisScalar p.1 p.2, 0 ≤ x ∧ x ≤ 1 := by
    intro x hx
    obtain ⟨p, -, rfl⟩ := List.mem_map.mp hx
    exact axisScalar_bounds p.1 p.2
  have hbounds := listProd_bounds _ hmem
  refine ⟨by rw [hprodeq]; exact hbounds, ?_, ?_⟩
  · rw [regionScalar]
    simp only [ne_eq, ite_not]
    constructor
    · intro h
      have hz : regionScalarProd axes tuple = 0 := by
        by_cases hc : regionScalarProd axes tuple = 0
        · exact hc
        · rw [if_neg hc] at h; exact absurd h (by simp)
      rw [hprodeq] at hz
      obtain ⟨p, hp, hpz⟩ : ∃ p ∈ axes.zip tuple, axisScalar p.1 p.2 = 0 := by
        have := List.prod_eq_zero_iff.mp hz
        obtain ⟨p, hp, hpe⟩ := List.mem_map.mp this
        exact ⟨p, hp, hpe⟩
      exact ⟨p, hp, (axisScalar_eq_zero_iff p.1 p.2).mp hpz⟩
    · rintro ⟨p, hp, hpz⟩
      have hz : regionScalarProd axes tuple = 0 := by
        rw [hprodeq]
        exact List.prod_eq_zero_iff.mpr
          (List.mem_map.mpr ⟨p, hp, (axisScalar_eq_zero_iff p.1 p.2).mpr hpz⟩)
      rw [if_pos hz]
  · rw [regionScalar]
    simp only [ne_eq, ite_not]
    constructor
    · intro h
      have hone : regionScalarProd axes tuple = 1 := by
        by_cases hc : regionScalarProd axes tuple = 0
        · rw [if_pos hc] at h; exact absurd h (by simp)
        · rw [if_neg hc] at h
          simpa using h
      rw [hprodeq] at hone
      intro p hp
      have := (listProd_eq_one_iff _ hmem).mp hone (axisScalar p.1 p.2)
        (List.mem_map.mpr ⟨p, hp, rfl⟩)
      exact (axisScalar_eq_one_iff p.1 p.2).mp this
    · intro hall
      have hone : regionScalarProd axes tuple = 1 := by
        rw [hprodeq]
        refine (listProd_eq_one_iff _ hmem).mpr fun x hx => ?_
        obtain ⟨p, hp, rfl⟩ := List.mem_map.mp hx
        exact (axisScalar_eq_one_iff p.1 p.2).mpr (hall p hp)
      rw [if_neg (by rw [hone]; exact one_ne_zero), hone]

/-- C6 witness: a two-axis region where one peak is zero and the other
instance sits on its peak inside the range yields scalar `Some 1`. -/
theorem region_scalar_spec_witness :
    regionScalar [⟨0, 0, 0⟩, ⟨-1, 1, 1⟩] [2, 1] = some 1 :=
  (region_scalar_spec [⟨0, 0, 0⟩, ⟨-1, 1, 1⟩] [2, 1]).2.2.mpr (by
    rintro p hp
    simp only [List.zip, List.zipWith, List.mem_cons, List.mem_singleton,
      List.not_mem_nil, or_false] at hp
    rcases hp with rfl | rfl
    · exact Or.inl rfl
    · exact Or.inr ⟨by norm_num, by norm_num, rfl⟩)

/-- The field projections of `setTag`. -/
theorem setTag_fields (g : ArabicGlyphM) (t : Nat) :
    (setTag g t).joiningType = g.joiningType ∧
    (setTag g t).multiSubstDup = g.multiSubstDup ∧
    (setTag g t).featureTag = t :=
  ⟨rfl, rfl, rfl⟩

/-- `TagsOK` holds on an all-transparent list. -/
theorem tagsOK_of_transparent :
    ∀ (l : List ArabicGlyphM) (lastNT : Option ArabicGlyphM),
      (∀ q ∈ l, isTransparentA q) → TagsOK lastNT l := by
  intro l
  induction l with
  | nil => intro lastNT _; trivial
  | cons t ts ih =>
      intro lastNT h
      have ht := h t (List.mem_cons_self t ts)
      simp only [TagsOK, if_pos ht]
      exact ih lastNT fun q hq => h q (List.mem_cons_of_mem t hq)

/-- Prepending transparent glyphs does not affect `TagsOK`. -/
theorem tagsOK_append_transparent :
    ∀ (ts : List ArabicGlyphM) (lastNT : Option ArabicGlyphM) (xs : List ArabicGlyphM),
      (∀ q ∈ ts, isTransparentA q) →
      (TagsOK lastNT (ts ++ xs) ↔ TagsOK lastNT xs) := by
  intro ts
  induction ts with
  | nil => intro lastNT xs _; simp
  | cons t ts ih =>
      intro lastNT xs h
      have ht := h t (List.mem_cons_self t ts)
      simp only [List.cons_append, TagsOK, if_pos ht]
      exact ih lastNT xs fun q hq => h q (List.mem_cons_of_mem t hq)

/-- `promoteTag` stays inside the four joining-state tags. -/
theorem promoteTag_tag4 {t : Nat} (h : tag4 t) : tag4 (promoteTag t) := by
  rcases h with h | h | h | h <;> subst h <;> simp [promoteTag, tag4, ISOL, INIT, MEDI, FINA]

/-- All tags produced by `joinAux` from `ISOL`-tagged input lie in the four
joining-state tags. -/
theorem joinAux_tag4 :
    ∀ (rest : List ArabicGlyphM) (prev : ArabicGlyphM) (pending : List ArabicGlyphM),
      (∀ g ∈ rest, g.featureTag = ISOL) →
      (∀ q ∈ pending, q.featureTag = ISOL) →
      tag4 prev.featureTag →
      ∀ g ∈ joinAux prev pending rest, tag4 g.featureTag := by
  intro rest
  induction rest with
  | nil =>
      intro prev pending _ hpend hprev g hg
      simp only [joinAux, List.mem_cons, List.mem_reverse] at hg
      rcases hg with rfl | hg
      · exact hprev
      · exact Or.inl (hpend g hg)
  | cons g0 gs ih =>
      intro prev pending hrest hpend hprev g hg
      have hg0 := hrest g0 (List.mem_cons_self g0 gs)
      have hgs : ∀ x ∈ gs, x.featureTag = ISOL :=
        fun x hx => hrest x (List.mem_cons_of_mem g0 hx)
      simp only [joinAux] at hg
      by_cases htr : isTransparentA g0
      · rw [if_pos htr] at hg
        refine ih prev (g0 :: pending) hgs ?_ hprev g hg
        intro q hq
        rcases List.mem_cons.mp hq with rfl | hq
        · exact hg0
        · exact hpend q hq
      · rw [if_neg htr] at hg
        by_cases hj : isLeftJoiningA prev ∧ isRightJoiningA g0
        · rw [if_pos hj] at hg
          rcases List.mem_cons.mp hg with rfl | hg
          · exact promoteTag_tag4 hprev
          · rcases List.mem_append.mp hg with hg | hg
            · exact Or.inl (hpend g (List.mem_reverse.mp hg))
            · refine ih (setTag g0 FINA) [] hgs (by simp) ?_ g hg
              exact Or.inr (Or.inr (Or.inr rfl))
        · rw [if_neg hj] at hg
          rcases List.mem_cons.mp hg with rfl | hg
          · exact hprev
          · rcases List.mem_append.mp hg with hg | hg
            · exact Or.inl (hpend g (List.mem_reverse.mp hg))
            · exact ih g0 [] hgs (by simp) (Or.inl hg0) g hg

/-- The `TagsOK` invariant is established by `joinAux`. -/
theorem joinAux_tagsOK :
    ∀ (rest : List ArabicGlyphM) (prev : ArabicGlyphM) (pending : List ArabicGlyphM)
      (lastNT : Option ArabicGlyphM),
      (∀ g ∈ rest, g.featureTag = ISOL) →
      (∀ q ∈ pending, isTransparentA q) →
      ¬ isTransparentA prev →
      (prev.featureTag = ISOL ∨
        (prev.featureTag = FINA ∧ isRightJoiningA prev ∧
          ∃ p, lastNT = some p ∧ isLeftJoiningA p)) →
      TagsOK lastNT (joinAux prev pending rest) := by
  intro rest
  induction rest with
  | nil =>
      intro prev pending lastNT _ hpend hntr hprev
      simp only [joinAux, TagsOK, if_neg hntr]
      constructor
      · intro hMF
        rcases hprev with hiso | ⟨hfin, hR, p, hl, hL⟩
        · rcases hMF with h | h <;> rw [hiso] at h <;>
            exact absurd h (by simp [ISOL, MEDI, FINA])
        · exact ⟨hR, p, hl, hL⟩
      · exact tagsOK_of_transparent _ _ fun q hq => hpend q (List.mem_reverse.mp hq)
  | cons g0 gs ih =>
      intro prev pending lastNT hrest hpend hntr hprev
      have hg0 := hrest g0 (List.mem_cons_self g0 gs)
      have hgs : ∀ x ∈ gs, x.featureTag = ISOL :=
        fun x hx => hrest x (List.mem_cons_of_mem g0 hx)
      simp only [joinAux]
      by_cases htr : isTransparentA g0
      · rw [if_pos htr]
        refine ih prev (g0 :: pending) lastNT hgs ?_ hntr hprev
        intro q hq
        rcases List.mem_cons.mp hq with rfl | hq
        · exact htr
        · exact hpend q hq
      · rw [if_neg htr]
        by_cases hj : isLeftJoiningA prev ∧ isRightJoiningA g0
        · rw [if_pos hj]
          have hntrF : ¬ isTransparentA (setTag prev (promoteTag prev.featureTag)) := by
            simpa [isTransparentA, setTag] using hntr
          simp only [TagsOK, if_neg hntrF]
          constructor
          · intro hMF
            rcases hprev with hiso | ⟨hfin, hR, p, hl, hL⟩
            · rw [show (setTag prev (promoteTag prev.featureTag)).featureTag =
                  promoteTag prev.featureTag from rfl, hiso] at hMF
              rcases hMF with h | h <;>
                exact absurd h (by simp [promoteTag, ISOL, INIT, MEDI, FINA])
            · refine ⟨by simpa [isRightJoiningA, setTag] using hR, p, hl, hL⟩
          · rw [List.append_eq, tagsOK_append_transparent _ _ _
              (fun q hq => hpend q (List.mem_reverse.mp hq))]
            refine ih (setTag g0 FINA) [] _ hgs (by simp) ?_ ?_
            · simpa [isTransparentA, setTag] using htr
            · refine Or.inr ⟨rfl, ?_, ⟨setTag prev (promoteTag prev.featureTag), rfl, ?_⟩⟩
              · simpa [isRightJoiningA, setTag] using hj.2
              · simpa [isLeftJoiningA, setTag] using hj.1
        · rw [if_neg hj]
          simp only [TagsOK, if_neg hntr]
          constructor
          · intro hMF
            rcases hprev with hiso | ⟨hfin, hR, p, hl, hL⟩
            · rcases hMF with h | h <;> rw [hiso] at h <;>
                exact absurd h (by simp [ISOL, MEDI, FINA])
            · exact ⟨hR, p, hl, hL⟩
          · rw [List.append_eq, tagsOK_append_transparent _ _ _
              (fun q hq => hpend q (List.mem_reverse.mp hq))]
            exact ih g0 [] _ hgs (by simp) htr (Or.inl hg0)

/-- C9: after the joining-state pass on a run whose glyphs all start tagged
`ISOL` (as `ArabicGlyph::from` guarantees), every glyph's tag is one of
`ISOL`/`INIT`/`MEDI`/`FINA`; every non-transparent glyph tagged `MEDI` or
`FINA` is right-joining-capable with a left-joining-capable nearest
preceding non-transparent glyph (the `TagsOK` walk); and a run of three
dual-joining letters ends `[INIT, MEDI, FINA]`, unchanged by a leading
transparent mark. -/
theorem arabic_joining_pass_spec :
    (∀ gs : List ArabicGlyphM, (∀ g ∈ gs, g.featureTag = ISOL) →
      (∀ g ∈ joinPass gs, tag4 g.featureTag) ∧ TagsOK none (joinPass gs)) ∧
    joinPass [dualG, dualG, dualG] =
      [setTag dualG INIT, setTag dualG MEDI, setTag dualG FINA] ∧
    joinPass [transG, dualG, dualG, dualG] =
      [transG, setTag dualG INIT, setTag dualG MEDI, setTag dualG FINA] := by
  refine ⟨?_, by decide, by decide⟩
  intro gs
  induction gs with
  | nil => intro _; exact ⟨by simp [joinPass], trivial⟩
  | cons g gs ih =>
      intro h
      have hg := h g (List.mem_cons_self g gs)
      have hgs : ∀ x ∈ gs, x.featureTag = ISOL :=
        fun x hx => h x (List.mem_cons_of_mem g hx)
      simp only [joinPass]
      by_cases htr : isTransparentA g
      · rw [if_pos htr]
        obtain ⟨ih1, ih2⟩ := ih hgs
        constructor
        · intro x hx
          rcases List.mem_cons.mp hx with rfl | hx
          · exact Or.inl hg
          · exact ih1 x hx
        · simpa only [TagsOK, if_pos htr] using ih2
      · rw [if_neg htr]
        exact ⟨joinAux_tag4 gs g [] hgs (by simp) (Or.inl hg),
          joinAux_tagsOK gs g [] none hgs (by simp) htr (Or.inl hg)⟩

/-- C9 witness: the theorem applied to the three-dual-letter run. -/
theorem arabic_joining_pass_spec_witness :
    (∀ g ∈ joinPass [dualG, dualG, dualG], tag4 g.featureTag) ∧
    TagsOK none (joinPass [dualG, dualG, dualG]) :=
  arabic_joining_pass_spec.1 [dualG, dualG, dualG] (by decide)

/-- A failed accumulator stays failed through the component fold. -/
theorem foldl_stepAll_none {α : Type} (f : α → Option Unit) :
    ∀ l : List α, l.foldl (stepAll f) none = none := by
  intro l
  induction l with
  | nil => rfl
  | cons c cs ih => simpa [stepAll] using ih

/-- If the component fold succeeds, every component step succeeded. -/
theorem foldl_stepAll_some {α : Type} (f : α → Option Unit) :
    ∀ l : List α, l.foldl (stepAll f) (some ()) = some () →
      ∀ c ∈ l, f c = some () := by
  intro l
  induction l with
  | nil => intro _ c hc; exact absurd hc (List.not_mem_nil c)
  | cons c cs ih =>
      intro h x hx
      have hstep : List.foldl (stepAll f) (f c) cs = some () := by
        simpa [stepAll] using h
      have hfc : f c = some () := by
        cases hfc : f c with
        | none => rw [hfc] at hstep; rw [foldl_stepAll_none] at hstep; exact absurd hstep (by simp)
        | some u => cases u; rfl
      rcases List.mem_cons.mp hx with rfl | hx
      · exact hfc
      · exact ih (by rwa [hfc] at hstep) x hx

/-- C10 (amended): exceeding the composite depth bound makes
`outline_impl` return `None`, and the `?` operator propagates a component's
`None` to the enclosing call — the whole outline fails rather than merely
stopping the descent; unresolvable component glyph ids are skipped, so a
composite whose only component is missing still succeeds with the parent
rect. -/
theorem glyf_depth_spec :
    (∀ font fuel data depth, MAX_COMPONENTS ≤ depth →
      outlineImpl font fuel data depth = none) ∧
    (∀ font fuel rect comps depth r,
      outlineImpl font (fuel + 1) ⟨rect, .composite comps⟩ depth = some r →
      r = rect ∧ ∀ c ∈ comps, ∀ gd, font c = some gd →
        outlineImpl font fuel gd (depth + 1) ≠ none) ∧
    (∀ font fuel rect c depth, font c = none → depth < MAX_COMPONENTS →
      outlineImpl font (fuel + 1) ⟨rect, .composite [c]⟩ depth = some rect) := by
  refine ⟨?_, ?_, ?_⟩
  · intro font fuel data depth h
    rw [outlineImpl, if_pos h]
  · intro font fuel rect comps depth r h
    rw [outlineImpl] at h
    by_cases hd : MAX_COMPONENTS ≤ depth
    · rw [if_pos hd] at h; exact absurd h (by simp)
    · rw [if_neg hd] at h
      simp only at h
      cases hf : comps.foldl
          (stepAll fun c =>
            match font c with
            | none => some ()
            | some gd =>
                match outlineImpl font fuel gd (depth + 1) with
                | none => none
                | some _ => some ())
          (some ()) with
      | none => rw [hf] at h; exact absurd h (by simp)
      | some u =>
          rw [hf] at h
          simp only [Option.some.injEq] at h
          refine ⟨h.symm, ?_⟩
          intro c hc gd hgd hrec
          have := foldl_stepAll_some _ comps (by cases u; exact hf) c hc
          simp [hgd, hrec] at this
  · intro font fuel rect c depth hfc hd
    rw [outlineImpl]
    simp [if_neg (not_le.mpr hd), stepAll, hfc]

/-- C10 witness: a composite whose single component id does not resolve
outlines successfully to its own rect. -/
theorem glyf_depth_spec_witness :
    outlineImpl (fun _ => none) 1 ⟨⟨0, 0, 0, 0⟩, .composite [5]⟩ 0 =
      some ⟨0, 0, 0, 0⟩ :=
  glyf_depth_spec.2.2 (fun _ => none) 0 ⟨0, 0, 0, 0⟩ 5 0 rfl (by decide)

/-- C10 counterexample: a self-referential composite exhausts the depth
bound and the whole outline call returns `None`, not the parent's parsed
rect — the depth limit is a failure of the operation, not a mere stop of
the descent. -/
theorem glyf_depth_failure_counterexample :
    glyfOutline selfFont 0 = none ∧
    selfFont 0 = some ⟨⟨1, 2, 3, 4⟩, .composite [0]⟩ := by
  decide

/-- Serialising a u16 read back from two bytes restores those bytes. -/
theorem readU16_write_inv {bs : List Nat} {v : Nat} {rem : List Nat}
    (hb : ∀ x ∈ bs, x < 256) (h : readU16 bs = some (v, rem)) :
    writeU16 v ++ rem = bs ∧ v < 65536 ∧ ∀ x ∈ rem, x < 256 := by
  match bs with
  | [] => exact absurd h (by simp [readU16])
  | [b0] => exact absurd h (by simp [readU16])
  | b0 :: b1 :: r =>
      simp only [readU16, Option.some.injEq, Prod.mk.injEq] at h
      have hb0 : b0 < 256 := hb b0 (by simp)
      have hb1 : b1 < 256 := hb b1 (by simp)
      obtain ⟨hv, hr⟩ := h
      subst hv hr
      refine ⟨?_, by simp [be16]; omega, fun x hx => hb x (by simp [hx])⟩
      simp only [writeU16, be16, List.cons_append, List.nil_append]
      congr 1
      · omega
      · congr 1
        omega

/-- Serialising an i16 read back from two bytes restores those bytes. -/
theorem readI16_write_inv {bs : List Nat} {v : Int} {rem : List Nat}
    (hb : ∀ x ∈ bs, x < 256) (h : readI16 bs = some (v, rem)) :
    writeI16 v ++ rem = bs ∧ ∀ x ∈ rem, x < 256 := by
  simp only [readI16, Option.map_eq_some'] at h
  obtain ⟨⟨n, rem1⟩, hn, hv⟩ := h
  simp only [Prod.mk.injEq] at hv
  obtain ⟨hv, hr⟩ := hv
  subst hv hr
  obtain ⟨hw, hlt, hrem⟩ := readU16_write_inv hb hn
  refine ⟨?_, hrem⟩
  rw [← hw]
  congr 1
  simp only [writeI16, toI16]
  by_cases hcase : n < 32768
  · rw [if_pos hcase]
    congr 1
    omega
  · rw [if_neg hcase]
    congr 1
    omega

/-- Serialising a u32 read back from four bytes restores those bytes. -/
theorem readU32_write_inv {bs : List Nat} {v : Nat} {rem : List Nat}
    (hb : ∀ x ∈ bs, x < 256) (h : readU32 bs = some (v, rem)) :
    writeU32 v ++ rem = bs ∧ ∀ x ∈ rem, x < 256 := by
  match bs with
  | [] => exact absurd h (by simp [readU32])
  | [b0] => exact absurd h (by simp [readU32])
  | [b0, b1] => exact absurd h (by simp [readU32])
  | [b0, b1, b2] => exact absurd h (by simp [readU32])
  | b0 :: b1 :: b2 :: b3 :: r =>
      simp only [readU32, Option.some.injEq, Prod.mk.injEq] at h
      have hb0 : b0 < 256 := hb b0 (by simp)
      have hb1 : b1 < 256 := hb b1 (by simp)
      have hb2 : b2 < 256 := hb b2 (by simp)
      have hb3 : b3 < 256 := hb b3 (by simp)
      obtain ⟨hv, hr⟩ := h
      subst hv hr
      refine ⟨?_, fun x hx => hb x (by simp [hx])⟩
      simp only [writeU32, List.cons_append, List.nil_append]
      congr 1
      · omega
      · congr 1
        · omega
        · congr 1
          · omega
          · congr 1
            omega

/-- Serialising the raw slice read by `read_slice` restores the bytes. -/
theorem readSlice_write_inv {n : Nat} {bs p rem : List Nat}
    (hb : ∀ x ∈ bs, x < 256) (h : readSlice n bs = some (p, rem)) :
    p ++ rem = bs ∧ ∀ x ∈ rem, x < 256 := by
  simp only [readSlice] at h
  by_cases hn : n ≤ bs.length
  · rw [if_pos hn] at h
    simp only [Option.some.injEq, Prod.mk.injEq] at h
    obtain ⟨hp, hr⟩ := h
    subst hp hr
    exact ⟨List.take_append_drop n bs, fun x hx => hb x (List.mem_of_mem_drop hx)⟩
  · rw [if_neg hn] at h
    exact absurd h (by simp)

/-- Successful `obind` peels into a successful first read and continuation. -/
theorem obind_eq_some {α β : Type} (x : Option α) (f : α → Option β) (b : β) :
    obind x f = some b ↔ ∃ a, x = some a ∧ f a = some b := by
  cases x <;> simp [obind]

/-- C3 counterexample: a well-formed 96-byte version-2 OS/2 table parses
(consuming every byte), but serialising the parsed table emits version
word 4 — the writer recomputes the version from the sub-records present —
so the round trip is not byte-identical; and an 80-byte version-0 table is
accepted with two unconsumed trailing bytes, which the 78-byte serialisation
cannot reproduce either. -/
theorem os2_roundtrip_counterexample :
    os2ReadDep os2V2Bytes 96 =
      some (Os2M.mk 2 0 0 0 0 0 0 0 0 0 0 0 0 0 0 0 (List.replicate 10 0)
        0 0 0 0 0 0 0 0 (some (Version0M.mk 0 0 0 0 0)) (some (Version1M.mk 0 0))
        (some (Version2to4M.mk 0 0 0 0 0)) none, []) ∧
    os2Write (Os2M.mk 2 0 0 0 0 0 0 0 0 0 0 0 0 0 0 0 (List.replicate 10 0)
        0 0 0 0 0 0 0 0 (some (Version0M.mk 0 0 0 0 0)) (some (Version1M.mk 0 0))
        (some (Version2to4M.mk 0 0 0 0 0)) none) = 0 :: 4 :: List.replicate 94 0 ∧
    (0 : Nat) :: 4 :: List.replicate 94 0 ≠ os2V2Bytes ∧
    os2ReadDep (List.replicate 80 0) 80 =
      some (Os2M.mk 0 0 0 0 0 0 0 0 0 0 0 0 0 0 0 0 (List.replicate 10 0)
        0 0 0 0 0 0 0 0 (some (Version0M.mk 0 0 0 0 0)) none none none, [0, 0]) := by
  refine ⟨by decide, by decide, by decide, by decide⟩

/-- C3 (amended): for every OS/2 byte slice the reader fully consumes
(`read_dep(b, b.len())` succeeds with no bytes left) whose declared version
word is 0, 1, 4 or 5, serialisation reproduces the input byte-for-byte.
(Versions 2 and 3 re-serialise with version word 4, and tables accepted
with unconsumed trailing bytes shrink — see the counterexample.) -/
theorem os2_roundtrip (bs : List Nat) (t : Os2M)
    (hb : ∀ x ∈ bs, x < 256)
    (h : os2ReadDep bs bs.length = some (t, []))
    (hv : t.version = 0 ∨ t.version = 1 ∨ t.version = 4 ∨ t.version = 5) :
    os2Write t = bs := by
  rw [os2ReadDep, obind_eq_some] at h
  obtain ⟨⟨version, bs1⟩, h1, h⟩ := h
  simp only at h
  rw [obind_eq_some] at h
  obtain ⟨⟨xavg, bs2⟩, h2, h⟩ := h
  simp only at h
  rw [obind_eq_some] at h
  obtain ⟨⟨wc, bs3⟩, h3, h⟩ := h
  simp only at h
  rw [obind_eq_some] at h
  obtain ⟨⟨wd, bs4⟩, h4, h⟩ := h
  simp only at h
  rw [obind_eq_some] at h
  obtain ⟨⟨ft, bs5⟩, h5, h⟩ := h
  simp only at h
  rw [obind_eq_some] at h
  obtain ⟨⟨i1, bs6⟩, h6, h⟩ := h
  simp only at h
  rw [obind_eq_some] at h
  obtain ⟨⟨i2, bs7⟩, h7, h⟩ := h
  simp only at h
  rw [obind_eq_some] at h
  obtain ⟨⟨i3, bs8⟩, h8, h⟩ := h
  simp only at h
  rw [obind_eq_some] at h
  obtain ⟨⟨i4, bs9⟩, h9, h⟩ := h
  simp only at h
  rw [obind_eq_some] at h
  obtain ⟨⟨i5, bs10⟩, h10, h⟩ := h
  simp only at h
  rw [obind_eq_some] at h
  obtain ⟨⟨i6, bs11⟩, h11, h⟩ := h
  simp only at h
  rw [obind_eq_some] at h
  obtain ⟨⟨i7, bs12⟩, h12, h⟩ := h
  simp only at h
  rw [obind_eq_some] at h
  obtain ⟨⟨i8, bs13⟩, h13, h⟩ := h
  simp only at h
  rw [obind_eq_some] at h
  obtain ⟨⟨i9, bs14⟩, h14, h⟩ := h
  simp only at h
  rw [obind_eq_some] at h
  obtain ⟨⟨i10, bs15⟩, h15, h⟩ := h
  simp only at h
  rw [obind_eq_some] at h
  obtain ⟨⟨i11, bs16⟩, h16, h⟩ := h
  simp only at h
  rw [obind_eq_some] at h
  obtain ⟨⟨pan, bs17⟩, h17, h⟩ := h
  simp only at h
  rw [obind_eq_some] at h
  obtain ⟨⟨u1, bs18⟩, h18, h⟩ := h
  simp only at h
  rw [obind_eq_some] at h
  obtain ⟨⟨u2, bs19⟩, h19, h⟩ := h
  simp only at h
  rw [obind_eq_some] at h
  obtain ⟨⟨u3, bs20⟩, h20, h⟩ := h
  simp only at h
  rw [obind_eq_some] at h
  obtain ⟨⟨u4, bs21⟩, h21, h⟩ := h
  simp only at h
  rw [obind_eq_some] at h
  obtain ⟨⟨u5, bs22⟩, h22, h⟩ := h
  simp only at h
  rw [obind_eq_some] at h
  obtain ⟨⟨fsel, bs23⟩, h23, h⟩ := h
  simp only at h
  rw [obind_eq_some] at h
  obtain ⟨⟨fci, bs24⟩, h24, h⟩ := h
  simp only at h
  rw [obind_eq_some] at h
  obtain ⟨⟨lci, bs25⟩, h25, h⟩ := h
  simp only at h
  rw [obind_eq_some] at h
  obtain ⟨⟨v0, bs26⟩, hv0, h⟩ := h
  simp only at h
  rw [obind_eq_some] at h
  obtain ⟨⟨v1, bs27⟩, hv1, h⟩ := h
  simp only at h
  rw [obind_eq_some] at h
  obtain ⟨⟨v2, bs28⟩, hv2, h⟩ := h
  simp only at h
  rw [obind_eq_some] at h
  obtain ⟨⟨v5, bs29⟩, hv5, h⟩ := h
  simp only at h
  simp only [Option.some.injEq, Prod.mk.injEq] at h
  obtain ⟨hteq, hrem⟩ := h
  obtain ⟨e1, l1, q1⟩ := readU16_write_inv hb h1
  obtain ⟨e2, q2⟩ := readI16_write_inv q1 h2
  obtain ⟨e3, l3, q3⟩ := readU16_write_inv q2 h3
  obtain ⟨e4, l4, q4⟩ := readU16_write_inv q3 h4
  obtain ⟨e5, l5, q5⟩ := readU16_write_inv q4 h5
  obtain ⟨e6, q6⟩ := readI16_write_inv q5 h6
  obtain ⟨e7, q7⟩ := readI16_write_inv q6 h7
  obtain ⟨e8, q8⟩ := readI16_write_inv q7 h8
  obtain ⟨e9, q9⟩ := readI16_write_inv q8 h9
  obtain ⟨e10, q10⟩ := readI16_write_inv q9 h10
  obtain ⟨e11, q11⟩ := readI16_write_inv q10 h11
  obtain ⟨e12, q12⟩ := readI16_write_inv q11 h12
  obtain ⟨e13, q13⟩ := readI16_write_inv q12 h13
  obtain ⟨e14, q14⟩ := readI16_write_inv q13 h14
  obtain ⟨e15, q15⟩ := readI16_write_inv q14 h15
  obtain ⟨e16, q16⟩ := readI16_write_inv q15 h16
  obtain ⟨e17, q17⟩ := readSlice_write_inv q16 h17
  obtain ⟨e18, q18⟩ := readU32_write_inv q17 h18
  obtain ⟨e19, q19⟩ := readU32_write_inv q18 h19
  obtain ⟨e20, q20⟩ := readU32_write_inv q19 h20
  obtain ⟨e21, q21⟩ := readU32_write_inv q20 h21
  obtain ⟨e22, q22⟩ := readU32_write_inv q21 h22
  obtain ⟨e23, l23, q23⟩ := readU16_write_inv q22 h23
  obtain ⟨e24, l24, q24⟩ := readU16_write_inv q23 h24
  obtain ⟨e25, l25, q25⟩ := readU16_write_inv q24 h25
  have hC0 : os2WriteV0 v0 ++ bs26 = bs25 ∧ (∀ x ∈ bs26, x < 256) ∧
      (v0.isSome ↔ 78 ≤ bs.length) := by
    by_cases h78 : 78 ≤ bs.length
    · rw [if_pos h78] at hv0
      simp only [obind_eq_some, Option.some.injEq, Prod.mk.injEq, Prod.exists] at hv0
      obtain ⟨a1, c1, k1, a2, c2, k2, a3, c3, k3, a4, c4, k4, a5, c5, k5,
        hveq, hvrem⟩ := hv0
      subst hvrem
      rw [← hveq]
      obtain ⟨f1, g1⟩ := readI16_write_inv q25 k1
      obtain ⟨f2, g2⟩ := readI16_write_inv g1 k2
      obtain ⟨f3, g3⟩ := readI16_write_inv g2 k3
      obtain ⟨f4, m4, g4⟩ := readU16_write_inv g3 k4
      obtain ⟨f5, m5, g5⟩ := readU16_write_inv g4 k5
      refine ⟨?_, g5, by simp [h78]⟩
      simp only [os2WriteV0]
      rw [← f1, ← f2, ← f3, ← f4, ← f5]
      simp [List.append_assoc]
    · rw [if_neg h78] at hv0
      simp only [Option.some.injEq, Prod.mk.injEq] at hv0
      obtain ⟨hveq, hvrem⟩ := hv0
      subst hvrem
      rw [← hveq]
      exact ⟨by simp [os2WriteV0], q25, by simp [h78]⟩
  obtain ⟨eC0, qC0, p0⟩ := hC0
  have hC1 : os2WriteV1 v1 ++ bs27 = bs26 ∧ (∀ x ∈ bs27, x < 256) ∧
      (v1.isSome ↔ 1 ≤ version) := by
    by_cases hcond : 1 ≤ version
    · rw [if_pos hcond] at hv1
      simp only [obind_eq_some, Option.some.injEq, Prod.mk.injEq, Prod.exists] at hv1
      obtain ⟨a1, c1, k1, a2, c2, k2, hveq, hvrem⟩ := hv1
      subst hvrem
      rw [← hveq]
      obtain ⟨f1, g1⟩ := readU32_write_inv qC0 k1
      obtain ⟨f2, g2⟩ := readU32_write_inv g1 k2
      refine ⟨?_, g2, by simp [hcond]⟩
      simp only [os2WriteV1]
      rw [← f1, ← f2]
      simp [List.append_assoc]
    · rw [if_neg hcond] at hv1
      simp only [Option.some.injEq, Prod.mk.injEq] at hv1
      obtain ⟨hveq, hvrem⟩ := hv1
      subst hvrem
      rw [← hveq]
      exact ⟨by simp [os2WriteV1], qC0, by simp [hcond]⟩
  obtain ⟨eC1, qC1, p1⟩ := hC1
  have hC2 : os2WriteV2to4 v2 ++ bs28 = bs27 ∧ (∀ x ∈ bs28, x < 256) ∧
      (v2.isSome ↔ 2 ≤ version) := by
    by_cases hcond : 2 ≤ version
    · rw [if_pos hcond] at hv2
      simp only [obind_eq_some, Option.some.injEq, Prod.mk.injEq, Prod.exists] at hv2
      obtain ⟨a1, c1, k1, a2, c2, k2, a3, c3, k3, a4, c4, k4, a5, c5, k5,
        hveq, hvrem⟩ := hv2
      subst hvrem
      rw [← hveq]
      obtain ⟨f1, g1⟩ := readI16_write_inv qC1 k1
      obtain ⟨f2, g2⟩ := readI16_write_inv g1 k2
      obtain ⟨f3, m3, g3⟩ := readU16_write_inv g2 k3
      obtain ⟨f4, m4, g4⟩ := readU16_write_inv g3 k4
      obtain ⟨f5, m5, g5⟩ := readU16_write_inv g4 k5
      refine ⟨?_, g5, by simp [hcond]⟩
      simp only [os2WriteV2to4]
      rw [← f1, ← f2, ← f3, ← f4, ← f5]
      simp [List.append_assoc]
    · rw [if_neg hcond] at hv2
      simp only [Option.some.injEq, Prod.mk.injEq] at hv2
      obtain ⟨hveq, hvrem⟩ := hv2
      subst hvrem
      rw [← hveq]
      exact ⟨by simp [os2WriteV2to4], qC1, by simp [hcond]⟩
  obtain ⟨eC2, qC2, p2⟩ := hC2
  have hC5 : os2WriteV5 v5 ++ bs29 = bs28 ∧ (∀ x ∈ bs29, x < 256) ∧
      (v5.isSome ↔ 5 ≤ version) := by
    by_cases hcond : 5 ≤ version
    · rw [if_pos hcond] at hv5
      simp only [obind_eq_some, Option.some.injEq, Prod.mk.injEq, Prod.exists] at hv5
      obtain ⟨a1, c1, k1, a2, c2, k2, hveq, hvrem⟩ := hv5
      subst hvrem
      rw [← hveq]
      obtain ⟨f1, m1, g1⟩ := readU16_write_inv qC2 k1
      obtain ⟨f2, m2, g2⟩ := readU16_write_inv g1 k2
      refine ⟨?_, g2, by simp [hcond]⟩
      simp only [os2WriteV5]
      rw [← f1, ← f2]
      simp [List.append_assoc]
    · rw [if_neg hcond] at hv5
      simp only [Option.some.injEq, Prod.mk.injEq] at hv5
      obtain ⟨hveq, hvrem⟩ := hv5
      subst hvrem
      rw [← hveq]
      exact ⟨by simp [os2WriteV5], qC2, by simp [hcond]⟩
  obtain ⟨eC5, qC5, p5⟩ := hC5
  subst hteq
  simp only at hv
  have hwv : (if v5.isSome then (5 : Nat) else if v2.isSome then 4
      else if v1.isSome then 1 else 0) = version := by
    rcases hv with rfl | rfl | rfl | rfl <;> simp [p1, p2, p5]
  simp only [os2Write, os2WriteVersion]
  rw [hwv, ← e1, ← e2, ← e3, ← e4, ← e5, ← e6, ← e7, ← e8, ← e9, ← e10, ← e11,
    ← e12, ← e13, ← e14, ← e15, ← e16, ← e17, ← e18, ← e19, ← e20, ← e21, ← e22,
    ← e23, ← e24, ← e25, ← eC0, ← eC1, ← eC2, ← eC5, hrem]
  simp

/-- C3 witness: the round-trip theorem applied to the 78-byte all-zero
version-0 table. -/
theorem os2_roundtrip_witness :
    os2Write (Os2M.mk 0 0 0 0 0 0 0 0 0 0 0 0 0 0 0 0 (List.replicate 10 0)
      0 0 0 0 0 0 0 0 (some (Version0M.mk 0 0 0 0 0)) none none none) =
      List.replicate 78 0 :=
  os2_roundtrip (List.replicate 78 0)
    (Os2M.mk 0 0 0 0 0 0 0 0 0 0 0 0 0 0 0 0 (List.replicate 10 0)
      0 0 0 0 0 0 0 0 (some (Version0M.mk 0 0 0 0 0)) none none none)
    (by decide) (by decide) (by decide)

/-- `resolveLocalSubrs` changes no field but `localSubrs`. -/
theorem resolveLocalSubrs_fields (font : CFFFontM) (ctx : ScanCtx) :
    (resolveLocalSubrs font ctx).widthParsed = ctx.widthParsed ∧
    (resolveLocalSubrs font ctx).hasEndchar = ctx.hasEndchar ∧
    (resolveLocalSubrs font ctx).hasSeac = ctx.hasSeac ∧
    (resolveLocalSubrs font ctx).vsindexSet = ctx.vsindexSet := by
  cases hls : ctx.localSubrs with
  | some l => simp [resolveLocalSubrs, hls]
  | none =>
      cases font with
      | cff1 f =>
          obtain ⟨fv, fs⟩ := f
          cases fv <;> simp [resolveLocalSubrs, hls]
      | cff2 l => simp [resolveLocalSubrs, hls]

/-- Central invariants of the CharString scan, by induction over the fuel:
once set, `has_seac` stays set; and a frame entered without `has_endchar`
that ends accepted with `has_endchar` set and `has_seac` clear has no
unread bytes left (the endchar arm and the post-call check both reject
trailing bytes). -/
theorem scanLoop_invariants :
    ∀ (fuel : Nat) (env : ScanEnv) (font : CFFFontM) (ctx : ScanCtx)
      (stack : List FVal) (cs : List Nat) (depth : Nat) (out : ScanOut),
      scanLoop env font fuel ctx stack cs depth = .ok out →
      (ctx.hasSeac = true → out.ctx.hasSeac = true) ∧
      (ctx.hasEndchar = false → out.ctx.hasEndchar = true →
        out.ctx.hasSeac = false → out.rem = []) := by
  intro fuel
  induction fuel with
  | zero =>
      intro env font ctx stack cs depth out h
      simp [scanLoop] at h
  | succ n ih =>
      intro env font ctx stack cs depth out h
      match cs with
      | [] =>
          simp only [scanLoop, Except.ok.injEq] at h
          rw [← h]
          exact ⟨fun hs => hs, fun _ _ _ => rfl⟩
      | op :: rest =>
          simp only [scanLoop] at h
          by_cases c1 : op = 0 ∨ op = 2 ∨ op = 9 ∨ op = 13 ∨ op = 17
          · rw [if_pos c1] at h; exact absurd h (by simp)
          rw [if_neg c1] at h
          by_cases c2 : op = 1 ∨ op = 3 ∨ op = 18 ∨ op = 23
          · rw [if_pos c2] at h
            by_cases cw : stack.length % 2 = 1 ∧ ctx.widthParsed = false
            · rw [if_pos cw] at h; have H := ih _ _ _ _ _ _ _ h; exact H
            · rw [if_neg cw] at h; have H := ih _ _ _ _ _ _ _ h; exact H
          rw [if_neg c2] at h
          by_cases c3 : op = 4
          · rw [if_pos c3] at h
            by_cases cw : stack.length = 2 ∧ ctx.widthParsed = false
            · rw [if_pos cw] at h; have H := ih _ _ _ _ _ _ _ h; exact H
            · rw [if_neg cw] at h; have H := ih _ _ _ _ _ _ _ h; exact H
          rw [if_neg c3] at h
          by_cases c4 : op = 5 ∨ op = 6 ∨ op = 7 ∨ op = 8
          · rw [if_pos c4] at h; have H := ih _ _ _ _ _ _ _ h; exact H
          rw [if_neg c4] at h
          by_cases c5 : op = 10
          · rw [if_pos c5] at h
            by_cases cs0 : stack.length = 0
            · rw [if_pos cs0] at h; exact absurd h (by simp)
            rw [if_neg cs0] at h
            by_cases cd : depth = STACK_LIMIT
            · rw [if_pos cd] at h; exact absurd h (by simp)
            rw [if_neg cd] at h
            try simp only at h
            obtain ⟨-, -, hrSeac, -⟩ := resolveLocalSubrs_fields font ctx
            cases hsub : (resolveLocalSubrs font ctx).localSubrs with
            | none => rw [hsub] at h; exact absurd h (by simp)
            | some ls =>
                rw [hsub] at h
                try simp only at h
                rcases hpop : popStack stack with ⟨idxQ, stack1⟩
                rw [hpop] at h
                try simp only at h
                cases hconv : convSubroutineIndexImpl idxQ (calcSubroutineBias ls.length) with
                | none => rw [hconv] at h; exact absurd h (by simp)
                | some index =>
                    rw [hconv] at h
                    try simp only at h
                    cases hobj : ls.get? index with
                    | none => rw [hobj] at h; exact absurd h (by simp)
                    | some subrCs =>
                        rw [hobj] at h
                        try simp only at h
                        split at h
                        · exact absurd h (by simp)
                        case _ out1 hrec =>
                            have I1 := ih _ _ _ _ _ _ _ hrec
                            by_cases hec : out1.ctx.hasEndchar = true ∧ out1.ctx.hasSeac = false
                            · rw [if_pos hec] at h
                              by_cases hrest : rest ≠ []
                              · rw [if_pos hrest] at h; exact absurd h (by simp)
                              · rw [if_neg hrest] at h
                                simp only [Except.ok.injEq] at h
                                rw [← h]
                                refine ⟨fun hs => I1.1 (by simp [hrSeac, hs]), ?_⟩
                                intro _ _ _
                                simpa using not_ne_iff.mp hrest
                            · rw [if_neg hec] at h
                              have I2 := ih _ _ _ _ _ _ _ h
                              constructor
                              · intro hs
                                exact I2.1 (I1.1 (by simp [hrSeac, hs]))
                              · intro he hoe hos
                                cases hb : out1.ctx.hasEndchar with
                                | false => exact I2.2 hb hoe hos
                                | true =>
                                    have hbs : out1.ctx.hasSeac = true := by
                                      cases hbs : out1.ctx.hasSeac with
                                      | false => exact absurd ⟨hb, hbs⟩ hec
                                      | true => rfl
                                    exact absurd (I2.1 hbs) (by simp [hos])
          rw [if_neg c5] at h
          by_cases c6 : op = 11
          · rw [if_pos c6] at h
            cases font with
            | cff1 f =>
                simp only [Except.ok.injEq] at h
                rw [← h]
                exact ⟨fun hs => hs, fun he hoe _ => absurd hoe (by simp [he])⟩
            | cff2 l => exact absurd h (by simp)
          rw [if_neg c6] at h
          by_cases c7 : op = 12
          · rw [if_pos c7] at h
            cases hr : readU8 rest with
            | none => rw [hr] at h; exact absurd h (by simp)
            | some p =>
                obtain ⟨op2, rest2⟩ := p
                rw [hr] at h
                try simp only at h
                by_cases cflex : op2 = 34 ∨ op2 = 35 ∨ op2 = 36 ∨ op2 = 37
                · rw [if_pos cflex] at h; have H := ih _ _ _ _ _ _ _ h; exact H
                · rw [if_neg cflex] at h; exact absurd h (by simp)
          rw [if_neg c7] at h
          by_cases c8 : op = 14
          · rw [if_pos c8] at h
            cases font with
            | cff2 l => exact absurd h (by simp)
            | cff1 f =>
                try simp only at h
                by_cases cseac : stack.length = 4 ∨
                    (ctx.widthParsed = false ∧ stack.length = 5)
                · rw [if_pos cseac] at h
                  rcases hp1 : popStack stack with ⟨accentQ, stack1⟩
                  rw [hp1] at h
                  try simp only at h
                  cases hsg1 : f.seacToGlyph accentQ with
                  | none => rw [hsg1] at h; exact absurd h (by simp)
                  | some accentChar =>
                      rw [hsg1] at h
                      try simp only at h
                      rcases hp2 : popStack stack1 with ⟨baseQ, stack2⟩
                      rw [hp2] at h
                      try simp only at h
                      cases hsg2 : f.seacToGlyph baseQ with
                      | none => rw [hsg2] at h; exact absurd h (by simp)
                      | some baseChar =>
                          rw [hsg2] at h
                          try simp only at h
                          rcases hp3 : popStack stack2 with ⟨dy, stack3⟩
                          rw [hp3] at h
                          try simp only at h
                          rcases hp4 : popStack stack3 with ⟨dx, stack4⟩
                          rw [hp4] at h
                          try simp only at h
                          by_cases cwp : ctx.widthParsed = false
                          · rw [if_pos cwp] at h
                            try simp only at h
                            cases hbase : env.charStringsIndex.get? baseChar with
                            | none => rw [hbase] at h; exact absurd h (by simp)
                            | some baseCs =>
                                rw [hbase] at h
                                try simp only at h
                                split at h
                                · exact absurd h (by simp)
                                case _ out1 hrec1 =>
                                    cases hacc : env.charStringsIndex.get? accentChar with
                                    | none => rw [hacc] at h; exact absurd h (by simp)
                                    | some accentCs =>
                                        rw [hacc] at h
                                        try simp only at h
                                        split at h
                                        · exact absurd h (by simp)
                                        case _ out2 hrec2 =>
                                            by_cases hrest : rest ≠ []
                                            · rw [if_pos hrest] at h
                                              exact absurd h (by simp)
                                            · rw [if_neg hrest] at h
                                              simp only [Except.ok.injEq] at h
                                              rw [← h]
                                              refine ⟨fun _ => ?_, fun _ _ _ => ?_⟩
                                              · have I1 := ih _ _ _ _ _ _ _ hrec1
                                                have I2 := ih _ _ _ _ _ _ _ hrec2
                                                exact I2.1 (I1.1 rfl)
                                              · simpa using not_ne_iff.mp hrest
                          · rw [if_neg cwp] at h
                            try simp only at h
                            cases hbase : env.charStringsIndex.get? baseChar with
                            | none => rw [hbase] at h; exact absurd h (by simp)
                            | some baseCs =>
                                rw [hbase] at h
                                try simp only at h
                                split at h
                                · exact absurd h (by simp)
                                case _ out1 hrec1 =>
                                    cases hacc : env.charStringsIndex.get? accentChar with
                                    | none => rw [hacc] at h; exact absurd h (by simp)
                                    | some accentCs =>
                                        rw [hacc] at h
                                        try simp only at h
                                        split at h
                                        · exact absurd h (by simp)
                                        case _ out2 hrec2 =>
                                            by_cases hrest : rest ≠ []
                                            · rw [if_pos hrest] at h
                                              exact absurd h (by simp)
                                            · rw [if_neg hrest] at h
                                              simp only [Except.ok.injEq] at h
                                              rw [← h]
                                              refine ⟨fun _ => ?_, fun _ _ _ => ?_⟩
                                              · have I1 := ih _ _ _ _ _ _ _ hrec1
                                                have I2 := ih _ _ _ _ _ _ _ hrec2
                                                exact I2.1 (I1.1 rfl)
                                              · simpa using not_ne_iff.mp hrest
                · rw [if_neg cseac] at h
                  by_cases cwp : stack.length = 1 ∧ ctx.widthParsed = false
                  · rw [if_pos cwp] at h
                    try simp only at h
                    by_cases hrest : rest ≠ []
                    · rw [if_pos hrest] at h; exact absurd h (by simp)
                    · rw [if_neg hrest] at h
                      simp only [Except.ok.injEq] at h
                      rw [← h]
                      exact ⟨fun hs => hs, fun _ _ _ => by
                        simpa using not_ne_iff.mp hrest⟩
                  · rw [if_neg cwp] at h
                    try simp only at h
                    by_cases hrest : rest ≠ []
                    · rw [if_pos hrest] at h; exact absurd h (by simp)
                    · rw [if_neg hrest] at h
                      simp only [Except.ok.injEq] at h
                      rw [← h]
                      exact ⟨fun hs => hs, fun _ _ _ => by
                        simpa using not_ne_iff.mp hrest⟩
          rw [if_neg c8] at h
          by_cases c9 : op = 15
          · rw [if_pos c9] at h
            cases font with
            | cff1 f => exact absurd h (by simp)
            | cff2 l =>
                try simp only at h
                by_cases cvs : ctx.vsindexSet = true
                · rw [if_pos cvs] at h; exact absurd h (by simp)
                · rw [if_neg cvs] at h; have H := ih _ _ _ _ _ _ _ h; exact H
          rw [if_neg c9] at h
          by_cases c10 : op = 16
          · rw [if_pos c10] at h
            cases font with
            | cff1 f => exact absurd h (by simp)
            | cff2 l =>
                try simp only at h
                by_cases cs0 : 0 < stack.length
                · rw [if_pos cs0] at h
                  rcases hpop : popStack stack with ⟨nQ, stack1⟩
                  rw [hpop] at h
                  try simp only at h
                  cases htn : tryNumFromU16 nQ with
                  | none => rw [htn] at h; exact absurd h (by simp)
                  | some nv =>
                      rw [htn] at h
                      try simp only at h
                      by_cases hlen : stack1.length < nv
                      · rw [if_pos hlen] at h; exact absurd h (by simp)
                      · rw [if_neg hlen] at h; have H := ih _ _ _ _ _ _ _ h; exact H
                · rw [if_neg cs0] at h; exact absurd h (by simp)
          rw [if_neg c10] at h
          by_cases c11 : op = 19 ∨ op = 20
          · rw [if_pos c11] at h
            try simp only at h
            by_cases cw : stack.length % 2 = 1 ∧ ctx.widthParsed = false
            · rw [if_pos cw] at h
              split at h
              · exact absurd h (by simp)
              · have H := ih _ _ _ _ _ _ _ h; exact H
            · rw [if_neg cw] at h
              split at h
              · exact absurd h (by simp)
              · have H := ih _ _ _ _ _ _ _ h; exact H
          rw [if_neg c11] at h
          by_cases c12 : op = 21
          · rw [if_pos c12] at h
            by_cases cw : stack.length = 3 ∧ ctx.widthParsed = false
            · rw [if_pos cw] at h; have H := ih _ _ _ _ _ _ _ h; exact H
            · rw [if_neg cw] at h; have H := ih _ _ _ _ _ _ _ h; exact H
          rw [if_neg c12] at h
          by_cases c13 : op = 22
          · rw [if_pos c13] at h
            by_cases cw : stack.length = 2 ∧ ctx.widthParsed = false
            · rw [if_pos cw] at h; have H := ih _ _ _ _ _ _ _ h; exact H
            · rw [if_neg cw] at h; have H := ih _ _ _ _ _ _ _ h; exact H
          rw [if_neg c13] at h
          by_cases c14 : op = 24 ∨ op = 25 ∨ op = 26 ∨ op = 27 ∨ op = 30 ∨ op = 31
          · rw [if_pos c14] at h; have H := ih _ _ _ _ _ _ _ h; exact H
          rw [if_neg c14] at h
          by_cases c15 : op = 28
          · rw [if_pos c15] at h
            cases hr : readU16 rest with
            | none => rw [hr] at h; exact absurd h (by simp)
            | some p =>
                obtain ⟨nv, rest2⟩ := p
                rw [hr] at h
                try simp only at h
                cases hp : pushStack stack (toI16 nv * 65536) with
                | none => rw [hp] at h; exact absurd h (by simp)
                | some stack2 =>
                    rw [hp] at h
                    try simp only at h
                    have H := ih _ _ _ _ _ _ _ h; exact H
          rw [if_neg c15] at h
          by_cases c16 : op = 29
          · rw [if_pos c16] at h
            by_cases cs0 : stack.length = 0
            · rw [if_pos cs0] at h; exact absurd h (by simp)
            rw [if_neg cs0] at h
            by_cases cd : depth = STACK_LIMIT
            · rw [if_pos cd] at h; exact absurd h (by simp)
            rw [if_neg cd] at h
            try simp only at h
            rcases hpop : popStack stack with ⟨idxQ, stack1⟩
            rw [hpop] at h
            try simp only at h
            cases hconv : convSubroutineIndexImpl idxQ
                (calcSubroutineBias env.globalSubrIndex.length) with
            | none => rw [hconv] at h; exact absurd h (by simp)
            | some index =>
                rw [hconv] at h
                try simp only at h
                cases hobj : env.globalSubrIndex.get? index with
                | none => rw [hobj] at h; exact absurd h (by simp)
                | some subrCs =>
                    rw [hobj] at h
                    try simp only at h
                    split at h
                    · exact absurd h (by simp)
                    case _ out1 hrec =>
                        have I1 := ih _ _ _ _ _ _ _ hrec
                        by_cases hec : out1.ctx.hasEndchar = true ∧ out1.ctx.hasSeac = false
                        · rw [if_pos hec] at h
                          by_cases hrest : rest ≠ []
                          · rw [if_pos hrest] at h; exact absurd h (by simp)
                          · rw [if_neg hrest] at h
                            simp only [Except.ok.injEq] at h
                            rw [← h]
                            refine ⟨fun hs => I1.1 hs, ?_⟩
                            intro _ _ _
                            simpa using not_ne_iff.mp hrest
                        · rw [if_neg hec] at h
                          have I2 := ih _ _ _ _ _ _ _ h
                          constructor
                          · intro hs
                            exact I2.1 (I1.1 hs)
                          · intro he hoe hos
                            cases hb : out1.ctx.hasEndchar with
                            | false => exact I2.2 hb hoe hos
                            | true =>
                                have hbs : out1.ctx.hasSeac = true := by
                                  cases hbs : out1.ctx.hasSeac with
                                  | false => exact absurd ⟨hb, hbs⟩ hec
                                  | true => rfl
                                exact absurd (I2.1 hbs) (by simp [hos])
          rw [if_neg c16] at h
          by_cases c17 : 32 ≤ op ∧ op ≤ 246
          · rw [if_pos c17] at h
            cases hp : pushStack stack (parseInt1 op) with
            | none => rw [hp] at h; exact absurd h (by simp)
            | some stack2 =>
                rw [hp] at h
                try simp only at h
                have H := ih _ _ _ _ _ _ _ h; exact H
          rw [if_neg c17] at h
          by_cases c18 : 247 ≤ op ∧ op ≤ 250
          · rw [if_pos c18] at h
            cases hr : readU8 rest with
            | none => rw [hr] at h; exact absurd h (by simp)
            | some p =>
                obtain ⟨b1, rest2⟩ := p
                rw [hr] at h
                try simp only at h
                cases hp : pushStack stack (parseInt2 op b1) with
                | none => rw [hp] at h; exact absurd h (by simp)
                | some stack2 =>
                    rw [hp] at h
                    try simp only at h
                    have H := ih _ _ _ _ _ _ _ h; exact H
          rw [if_neg c18] at h
          by_cases c19 : 251 ≤ op ∧ op ≤ 254
          · rw [if_pos c19] at h
            cases hr : readU8 rest with
            | none => rw [hr] at h; exact absurd h (by simp)
            | some p =>
                obtain ⟨b1, rest2⟩ := p
                rw [hr] at h
                try simp only at h
                cases hp : pushStack stack (parseInt3 op b1) with
                | none => rw [hp] at h; exact absurd h (by simp)
                | some stack2 =>
                    rw [hp] at h
                    try simp only at h
                    have H := ih _ _ _ _ _ _ _ h; exact H
          rw [if_neg c19] at h
          by_cases c20 : op = 255
          · rw [if_pos c20] at h
            cases hr : readU32 rest with
            | none => rw [hr] at h; exact absurd h (by simp)
            | some p =>
                obtain ⟨nv, rest2⟩ := p
                rw [hr] at h
                try simp only at h
                cases hp : pushStack stack (parseFixedVal nv) with
                | none => rw [hp] at h; exact absurd h (by simp)
                | some stack2 =>
                    rw [hp] at h
                    try simp only at h
                    have H := ih _ _ _ _ _ _ _ h; exact H
          rw [if_neg c20] at h
          exact absurd h (by simp)

/-- C1: (a) any frame accepted by the scanner that was entered without
`has_endchar` and ends with `has_endchar` set and `has_seac` clear has no
unread bytes (no bytes of any frame remain after endchar); (b) a CFF1
CharString accepted by `char_string_used_subrs` ends its top-level scan
with `has_endchar` true and, when no seac ran, an empty remainder; (c) a
top-level CFF1 scan that completes without executing endchar fails with
missing-endchar; (d) an endchar executed with bytes remaining (outside the
seac stack shapes) fails with data-after-endchar. -/
theorem cff1_endchar_spec :
    (∀ (fuel : Nat) (env : ScanEnv) (font : CFFFontM) (ctx : ScanCtx)
        (stack : List FVal) (cs : List Nat) (depth : Nat) (out : ScanOut),
        scanLoop env font fuel ctx stack cs depth = .ok out →
        ctx.hasEndchar = false → out.ctx.hasEndchar = true →
        out.ctx.hasSeac = false → out.rem = []) ∧
    (∀ (fuel : Nat) (env : ScanEnv) (f : CFF1FontM) (cs : List Nat)
        (gid : Nat) (used : UsedSubrsM),
        charStringUsedSubrs fuel env (.cff1 f) cs gid = .ok used →
        ∃ out, scanLoop env (.cff1 f) fuel
            (initCtx gid (initialLocalSubrs (.cff1 f))) [] cs 0 = .ok out ∧
          out.ctx.hasEndchar = true ∧ (out.ctx.hasSeac = false → out.rem = [])) ∧
    (∀ (fuel : Nat) (env : ScanEnv) (f : CFF1FontM) (cs : List Nat)
        (gid : Nat) (out : ScanOut),
        scanLoop env (.cff1 f) fuel (initCtx gid (initialLocalSubrs (.cff1 f)))
            [] cs 0 = .ok out →
        out.ctx.hasEndchar = false →
        charStringUsedSubrs fuel env (.cff1 f) cs gid = .error .missingEndChar) ∧
    (∀ (fuel : Nat) (env : ScanEnv) (f : CFF1FontM) (ctx : ScanCtx)
        (stack : List FVal) (rest : List Nat) (depth : Nat),
        ¬ (stack.length = 4 ∨ (ctx.widthParsed = false ∧ stack.length = 5)) →
        rest ≠ [] →
        scanLoop env (.cff1 f) (fuel + 1) ctx stack (14 :: rest) depth =
          .error .dataAfterEndChar) := by
  refine ⟨?_, ?_, ?_, ?_⟩
  · intro fuel env font ctx stack cs depth out h he hoe hos
    exact (scanLoop_invariants fuel env font ctx stack cs depth out h).2 he hoe hos
  · intro fuel env f cs gid used h
    simp only [charStringUsedSubrs] at h
    cases hscan : scanLoop env (.cff1 f) fuel
        (initCtx gid (initialLocalSubrs (.cff1 f))) [] cs 0 with
    | error e => rw [hscan] at h; exact absurd h (by simp)
    | ok out =>
        rw [hscan] at h
        simp only at h
        by_cases hend : out.ctx.hasEndchar = false
        · rw [if_pos hend] at h; exact absurd h (by simp)
        · refine ⟨out, rfl, by simpa using hend, fun hos => ?_⟩
          exact (scanLoop_invariants _ _ _ _ _ _ _ _ hscan).2 rfl
            (by simpa using hend) hos
  · intro fuel env f cs gid out hscan hend
    simp only [charStringUsedSubrs, hscan]
    rw [if_pos hend]
  · intro fuel env f ctx stack rest depth hns hrest
    simp only [scanLoop]
    rw [if_neg (by decide), if_neg (by decide), if_neg (by decide),
      if_neg (by decide), if_neg (by decide), if_neg (by decide),
      if_neg (by decide), if_pos (by decide)]
    rw [if_neg hns]
    by_cases cwp : stack.length = 1 ∧ ctx.widthParsed = false
    · rw [if_pos cwp]
      simp only
      rw [if_pos hrest]
    · rw [if_neg cwp]
      simp only
      rw [if_pos hrest]

/-- C1 witness: the theorem applied to the two-byte CharString
`[139, endchar]` (width 0 then endchar) on a trivial CFF1 font. -/
theorem cff1_endchar_spec_witness :
    ScanOut.rem
      ⟨⟨true, 0, true, false, false, 0, none, [], []⟩, [], []⟩ = [] ∧
    scanLoop env0 (.cff1 cff1Trivial) 3 (initCtx 0 none) [] [139, 14] 0 =
      .ok ⟨⟨true, 0, true, false, false, 0, none, [], []⟩, [], []⟩ ∧
    scanLoop env0 (.cff1 cff1Trivial) 1 (initCtx 0 none) [] [14, 139] 0 =
      .error .dataAfterEndChar := by
  refine ⟨?_, by decide, ?_⟩
  · exact cff1_endchar_spec.1 3 env0 (.cff1 cff1Trivial) (initCtx 0 none) []
      [139, 14] 0 ⟨⟨true, 0, true, false, false, 0, none, [], []⟩, [], []⟩
      (by decide) rfl rfl rfl
  · exact cff1_endchar_spec.2.2.2 0 env0 cff1Trivial (initCtx 0 none) [] [139] 0
      (by decide) (by decide)

/-- C7 counterexample: the CFF2 CharString `[140, 139, blend, vsindex]`
executes a blend before its (first) vsindex, yet the scan is accepted —
it does not fail with duplicate-vsindex as the claim requires. -/
theorem vsindex_after_blend_accepted :
    charStringUsedSubrs 10 env0 (.cff2 none) [140, 139, 16, 15] 0 =
      .ok ⟨[], []⟩ ∧
    charStringUsedSubrs 10 env0 (.cff2 none) [140, 139, 16, 15] 0 ≠
      .error .duplicateVsIndex := by
  exact ⟨by decide, by decide⟩

/-- C7 (amended): a vsindex executed when `vs_index_set` is already set —
that is, a second vsindex — fails with duplicate-vsindex; the scanner does
not track blend, so a vsindex whose only predecessor is a blend operator
is accepted. -/
theorem vsindex_spec :
    (∀ (fuel : Nat) (env : ScanEnv) (l : Option IndexM) (ctx : ScanCtx)
        (stack : List FVal) (rest : List Nat) (depth : Nat),
        ctx.vsindexSet = true →
        scanLoop env (.cff2 l) (fuel + 1) ctx stack (15 :: rest) depth =
          .error .duplicateVsIndex) ∧
    (charStringUsedSubrs 10 env0 (.cff2 none) [140, 139, 16, 15] 0).isOk = true := by
  refine ⟨?_, by decide⟩
  intro fuel env l ctx stack rest depth hvs
  simp only [scanLoop]
  rw [if_neg (by decide), if_neg (by decide), if_neg (by decide),
    if_neg (by decide), if_neg (by decide), if_neg (by decide),
    if_neg (by decide), if_neg (by decide), if_pos (by decide)]
  rw [if_pos hvs]

/-- C7 witness: a second vsindex on a context with `vs_index_set` already
set errors with duplicate-vsindex. -/
theorem vsindex_spec_witness :
    scanLoop env0 (.cff2 none) 1
      { initCtx 0 none with vsindexSet := true } [] [15] 0 =
      .error .duplicateVsIndex :=
  vsindex_spec.1 0 env0 none { initCtx 0 none with vsindexSet := true } [] [] 0 rfl
